import Mathlib

/-!
# Graph (Assignments 8, `graph.h`) and the recursion exercises (Assignments 6, `Source.cpp`)

A shallow embedding of the undirected graph class of `graph.h`, and of the functions
`isPalindorome`, `digitSum`, `countways` and `waysToClimb` of `Source.cpp`.

* Nodes are heap objects reached through pointers (`Node<T>*`).  The heap is a list of
  cells, an address is an index into it, `new` appends a cell and `delete` empties one.
* `std::unordered_set<Node<T>*>` and `std::unordered_map<T, Node<T>*>` are lists without
  duplicates; the order of the list is the order in which the container is iterated.
  The source leaves that order unspecified, so statements that are to hold for every
  iteration order are stated for every reordering (`Reorder`).
* An operation returns the heap it leaves behind together with its outcome, so that the
  state at the moment an exception is thrown can be inspected.
* `while (true)` of `shortestPath` is run with a bound on the number of iterations;
  `none` means the bound was reached before the loop was left.
* A program with several graph objects is a heap with the list of its graph objects
  (`applyWOp`, `Reach`).
* The functions of `Source.cpp` are recursive functions on unbounded integers and on lists
  of characters; Lean accepts them only with a proof that the recursion ends.
-/

deriving instance DecidableEq for Except

namespace Csc340

/-- What an operation can throw.  The first two are the exception classes of `graph.h`;
`out_of_range` is what `unordered_map::at` throws; `invalid_pointer` stands for the use of
a pointer that does not point to a live node (undefined behaviour in the source). -/
inductive Exn where
  | NonExistentNodeException
  | NoPathException
  | out_of_range
  | invalid_pointer
  deriving DecidableEq, Repr

/-- The class `Node<T>`: the set of adjacent node pointers, the value and the marker.
The constructor does not initialise `marked`; `none` is that indeterminate state. -/
structure Node (T : Type) where
  adjacents : List Nat
  value : T
  marked : Option Bool
  deriving DecidableEq, Repr

/-- The free store: cell `p` holds the node at address `p`, or `none` once deleted. -/
abbrev Heap (T : Type) := List (Option (Node T))

/-- The class `Graph<T>`: its only member is the map `nodes` from values to node pointers. -/
structure Graph (T : Type) where
  nodes : List (T × Nat)
  deriving DecidableEq, Repr

set_option linter.unusedSectionVars false

variable {T : Type} [DecidableEq T]

/-- The node `p` points to, if `p` points to a live node. -/
def deref (h : Heap T) (p : Nat) : Option (Node T) :=
  match h[p]? with
  | some (some n) => some n
  | _ => none

/-- Overwrite the node at address `p`. -/
def store (h : Heap T) (p : Nat) (n : Node T) : Heap T :=
  h.set p (some n)

/-- The constructor `Node(const T& value) : value(value) {}`. -/
def newNode (value : T) : Node T :=
  { adjacents := [], value := value, marked := none }

/-- The expression `new Node<T>(value)`: the new heap and the address of the new node. -/
def alloc (h : Heap T) (n : Node T) : Heap T × Nat :=
  (h ++ [some n], h.length)

/-- The call `unordered_set::insert`. -/
def setInsert (s : List Nat) (x : Nat) : List Nat :=
  if x ∈ s then s else s ++ [x]

/-- The lookup `nodes.find(value)` on the entries of the map; `none` is `nodes.end()`. -/
def findEntry : List (T × Nat) → T → Option Nat
  | [], _ => none
  | (k, p) :: rest, v => if k = v then some p else findEntry rest v

/-- The lookup `nodes.find(value)`. -/
def find (g : Graph T) (value : T) : Option Nat :=
  findEntry g.nodes value

/-- The method `Graph::insert`: the heap, the graph and the returned pointer (`none` is `NULL`). -/
def insert (h : Heap T) (g : Graph T) (value : T) : Heap T × Graph T × Option Nat :=
  match find g value with
  | some _ => (h, g, none)
  | none =>
    let r := alloc h (newNode value)
    (r.1, { nodes := g.nodes ++ [(value, r.2)] }, some r.2)

/-- The method `Graph::connect(Node<T>*, Node<T>*)`. -/
def connectPtr (h : Heap T) (first second : Nat) : Heap T × Except Exn Unit :=
  match deref h first with
  | none => (h, .error .invalid_pointer)
  | some n1 =>
    let h1 := store h first { n1 with adjacents := setInsert n1.adjacents second }
    match deref h1 second with
    | none => (h1, .error .invalid_pointer)
    | some n2 =>
      (store h1 second { n2 with adjacents := setInsert n2.adjacents first }, .ok ())

/-- The method `Graph::connect(const T&, const T&)`. -/
def connect (h : Heap T) (g : Graph T) (first second : T) : Heap T × Except Exn Unit :=
  match find g first, find g second with
  | some p, some q => connectPtr h p q
  | _, _ => (h, .error .NonExistentNodeException)

/-- The loop of `Graph::unmarkAll` over the entries of `nodes`. -/
def unmarkAllLoop : List (T × Nat) → Heap T → Heap T × Except Exn Unit
  | [], h => (h, .ok ())
  | (_, p) :: rest, h =>
    match deref h p with
    | none => (h, .error .invalid_pointer)
    | some n => unmarkAllLoop rest (store h p { n with marked := some false })

/-- The method `Graph::unmarkAll`. -/
def unmarkAll (h : Heap T) (g : Graph T) : Heap T × Except Exn Unit :=
  unmarkAllLoop g.nodes h

/-- What the `for` loop over the neighbours in `shortestPath` ends with: it runs to the end
(`next`, with the new `tempStorage`) or leaves the method through `return b` (`found`). -/
inductive Scan where
  | next (tempStorage : List (List Nat))
  | found (b : List Nat)
  deriving DecidableEq, Repr

/-- The `for` loop of `shortestPath` over the remaining neighbours `adjacents` of the last
node of `a`.  Every neighbour gets a fresh node holding its value, appended to a copy of `a`;
the copy is pushed on `tempStorage`, and returned if the neighbour's value is `end`. -/
def scanNeighbors (endV : T) (a : List Nat) :
    List Nat → Heap T → List (List Nat) → Heap T × Except Exn Scan
  | [], h, tempStorage => (h, .ok (.next tempStorage))
  | q :: rest, h, tempStorage =>
    match deref h q with
    | none => (h, .error .invalid_pointer)
    | some nq =>
      let r := alloc h (newNode nq.value)
      let b := a ++ [r.2]
      if nq.value = endV then (r.1, .ok (.found b))
      else scanNeighbors endV a rest r.1 (tempStorage ++ [b])

/-- The `while (true)` loop of `shortestPath`, at most `fuel` iterations of it. -/
def searchLoop (g : Graph T) (endV : T) :
    Nat → Heap T → List (List Nat) → Option (Heap T × Except Exn (List Nat))
  | 0, _, _ => none
  | fuel + 1, h, tempStorage =>
    match tempStorage with
    | [] => some (h, .error .NonExistentNodeException)
    | a :: _ =>
      match a.getLast? with
      | none => some (h, .error .invalid_pointer)
      | some last =>
        match deref h last with
        | none => some (h, .error .invalid_pointer)
        | some nl =>
          match find g nl.value with
          | none => some (h, .error .out_of_range)
          | some p =>
            match deref h p with
            | none => some (h, .error .invalid_pointer)
            | some np =>
              match scanNeighbors endV a np.adjacents h tempStorage.dropLast with
              | (h', .error e) => some (h', .error e)
              | (h', .ok (.found b)) => some (h', .ok b)
              | (h', .ok (.next tempStorage')) => searchLoop g endV fuel h' tempStorage'

/-- The method `Graph::shortestPath`, its loop bounded by `fuel` iterations.  The result is
the vector of pointers to the fresh nodes of the returned path. -/
def shortestPath (h : Heap T) (g : Graph T) (start endV : T) (fuel : Nat) :
    Option (Heap T × Except Exn (List Nat)) :=
  match find g start, find g endV with
  | some ps, some _ =>
    match unmarkAll h g with
    | (h1, .error e) => some (h1, .error e)
    | (h1, .ok _) =>
      match deref h1 ps with
      | none => some (h1, .error .invalid_pointer)
      | some ns =>
        let r := alloc h1 (newNode ns.value)
        searchLoop g endV fuel r.1 [[r.2]]
  | _, _ => some (h, .error .NonExistentNodeException)

/-- The values held by the nodes a list of pointers points to (`->value` of each). -/
def valuesOf (h : Heap T) (ptrs : List Nat) : List T :=
  ptrs.filterMap fun p => (deref h p).map Node.value

/-- The first loop of `Graph::copyOther`: `insert(iter->first)` for every entry of `other`. -/
def copyInserts : List (T × Nat) → Heap T → Graph T → Heap T × Graph T
  | [], h, g => (h, g)
  | (v, _) :: rest, h, g =>
    let r := insert h g v
    copyInserts rest r.1 r.2.1

/-- The inner loop of `Graph::copyOther`: `connect(iter->first, (*neighborsIter)->value)`
for every pointer of the copied adjacency set. -/
def copyEdgesOf (g : Graph T) (v : T) : List Nat → Heap T → Heap T × Except Exn Unit
  | [], h => (h, .ok ())
  | q :: rest, h =>
    match deref h q with
    | none => (h, .error .invalid_pointer)
    | some nq =>
      match connect h g v nq.value with
      | (h', .error e) => (h', .error e)
      | (h', .ok _) => copyEdgesOf g v rest h'

/-- The second loop of `Graph::copyOther` over the entries of `other`. -/
def copyEdges (g : Graph T) : List (T × Nat) → Heap T → Heap T × Except Exn Unit
  | [], h => (h, .ok ())
  | (v, p) :: rest, h =>
    match deref h p with
    | none => (h, .error .invalid_pointer)
    | some n =>
      match copyEdgesOf g v n.adjacents h with
      | (h', .error e) => (h', .error e)
      | (h', .ok _) => copyEdges g rest h'

/-- The method `Graph::copyOther`, run on the graph `this`. -/
def copyOther (h : Heap T) (this other : Graph T) : Heap T × Graph T × Except Exn Unit :=
  let r := copyInserts other.nodes h this
  let e := copyEdges r.2 other.nodes r.1
  (e.1, r.2, e.2)

/-- The loop of `Graph::clear`: `delete iter->second` for every entry. -/
def clearLoop : List (T × Nat) → Heap T → Heap T × Except Exn Unit
  | [], h => (h, .ok ())
  | (_, p) :: rest, h =>
    match deref h p with
    | none => (h, .error .invalid_pointer)
    | some _ => clearLoop rest (h.set p none)

/-- The method `Graph::clear`. -/
def clear (h : Heap T) (g : Graph T) : Heap T × Graph T × Except Exn Unit :=
  match clearLoop g.nodes h with
  | (h', .error e) => (h', g, .error e)
  | (h', .ok _) => (h', { nodes := [] }, .ok ())

/-- The copy constructor `Graph(const Graph<T>& other)`. -/
def copyConstruct (h : Heap T) (other : Graph T) : Heap T × Graph T × Except Exn Unit :=
  copyOther h { nodes := [] } other

/-- The assignment `operator=`; `same` is the test `this == &other`. -/
def assign (h : Heap T) (this other : Graph T) (same : Bool) :
    Heap T × Graph T × Except Exn Unit :=
  if same then (h, this, .ok ())
  else
    match clear h this with
    | (h1, g1, .error e) => (h1, g1, .error e)
    | (h1, g1, .ok _) => copyOther h1 g1 other

/-! ## Notions the statements are written in -/

/-- The values stored in the graph: the keys of `nodes`, in iteration order. -/
def Graph.keys (g : Graph T) : List T :=
  g.nodes.map Prod.fst

/-- The values adjacent to `v`: the values of the nodes in the adjacency set of the node
stored under `v`, in iteration order (empty when `v` is not in the graph). -/
def adjValues (h : Heap T) (g : Graph T) (v : T) : List T :=
  match find g v with
  | none => []
  | some p =>
    match deref h p with
    | none => []
    | some n => valuesOf h n.adjacents

/-- The marker of the node stored under `v`. -/
def markerOf (h : Heap T) (g : Graph T) (v : T) : Option (Option Bool) :=
  match find g v with
  | none => none
  | some p => (deref h p).map Node.marked

/-- A walk of the graph: a non-empty sequence of values, each adjacent to the one before. -/
def IsWalk (h : Heap T) (g : Graph T) (w : List T) : Prop :=
  w ≠ [] ∧ List.Chain' (fun x y => y ∈ adjValues h g x) w

/-- A walk from `start` to `endV`. -/
def IsWalkFromTo (h : Heap T) (g : Graph T) (start endV : T) (w : List T) : Prop :=
  IsWalk h g w ∧ w.head? = some start ∧ w.getLast? = some endV

/-- The representation invariant of a graph in a heap: no value is stored twice; every
entry points to a live node that holds the entry's value and whose adjacency set has no
duplicates; every adjacent pointer is the pointer of an entry of this graph, and that
node has the pointer of this one in its own adjacency set. -/
structure WF (h : Heap T) (g : Graph T) : Prop where
  keys_nodup : g.keys.Nodup
  node : ∀ v p, (v, p) ∈ g.nodes → ∃ n, deref h p = some n ∧ n.value = v ∧
    n.adjacents.Nodup ∧
    ∀ q ∈ n.adjacents, ∃ m, deref h q = some m ∧ (m.value, q) ∈ g.nodes ∧ p ∈ m.adjacents

/-- Two nodes that differ at most in the iteration order of the adjacency set. -/
def NodeReorder (n m : Node T) : Prop :=
  n.value = m.value ∧ n.marked = m.marked ∧ n.adjacents.Perm m.adjacents

/-- Two heap cells that differ at most in the iteration order of the adjacency set. -/
def CellReorder : Option (Node T) → Option (Node T) → Prop
  | none, none => True
  | some n, some m => NodeReorder n m
  | _, _ => False

/-- Two states that differ at most in the iteration order of the unordered containers:
the map `nodes` holds the same entries, the heaps have the same size, and every address
holds the same node up to the order of its adjacency set. -/
def Reorder (h : Heap T) (g : Graph T) (h' : Heap T) (g' : Graph T) : Prop :=
  g.nodes.Perm g'.nodes ∧ h.length = h'.length ∧
  ∀ p, CellReorder (deref h p) (deref h' p)

/-- The two mutating operations a client builds a graph with. -/
inductive Op (T : Type) where
  | insert (value : T)
  | connect (first second : T)
  deriving DecidableEq, Repr

/-- The relation `Run h g ops h' g'`: running the operations `ops` in order on the state
`(h, g)` can leave the state `(h', g')`, the unordered containers being free to change their
iteration order between any two operations. -/
inductive Run : Heap T → Graph T → List (Op T) → Heap T → Graph T → Prop where
  | nil (h : Heap T) (g : Graph T) : Run h g [] h g
  | reorder {h h1 h' : Heap T} {g g1 g' : Graph T} {ops : List (Op T)} :
      Reorder h g h1 g1 → Run h1 g1 ops h' g' → Run h g ops h' g'
  | insert {h h' : Heap T} {g g' : Graph T} {ops : List (Op T)} (value : T) :
      Run (insert h g value).1 (insert h g value).2.1 ops h' g' →
      Run h g (Op.insert value :: ops) h' g'
  | connect {h h' : Heap T} {g g' : Graph T} {ops : List (Op T)} (first second : T) :
      Run (connect h g first second).1 g ops h' g' →
      Run h g (Op.connect first second :: ops) h' g'

/-- A graph built from the empty graph by `insert` and `connect`, in a heap that may
already hold other objects. -/
def Built (h : Heap T) (g : Graph T) : Prop :=
  ∃ (h0 : Heap T) (ops : List (Op T)), Run h0 { nodes := [] } ops h g

/-! ## The search seen on values

The loop of `shortestPath` with every path node replaced by the value it holds and the
adjacency of a value given by a function.  The proofs relate the loop on the heap to it. -/

/-- What `scanNeighbors` ends with, on values. -/
inductive VScan (T : Type) where
  | next (tempStorage : List (List T))
  | found (b : List T)

/-- The loop `scanNeighbors`, on values. -/
def vScan (endV : T) (a : List T) : List T → List (List T) → VScan T
  | [], tempStorage => .next tempStorage
  | w :: rest, tempStorage =>
    if w = endV then .found (a ++ [w])
    else vScan endV a rest (tempStorage ++ [a ++ [w]])

/-- The loop `searchLoop`, on values. -/
def vLoop (adj : T → List T) (endV : T) :
    Nat → List (List T) → Option (Except Exn (List T))
  | 0, _ => none
  | fuel + 1, tempStorage =>
    match tempStorage with
    | [] => some (.error .NonExistentNodeException)
    | a :: _ =>
      match a.getLast? with
      | none => some (.error .invalid_pointer)
      | some last =>
        match vScan endV a (adj last) tempStorage.dropLast with
        | .found b => some (.ok b)
        | .next tempStorage' => vLoop adj endV fuel tempStorage'

/-- The outcome of `shortestPath` with the returned pointers replaced by the values of the
nodes they point to, and the final heap dropped. -/
def outcomeValues (r : Option (Heap T × Except Exn (List Nat))) :
    Option (Except Exn (List T)) :=
  match r with
  | none => none
  | some (_, .error e) => some (.error e)
  | some (h, .ok path) => some (.ok (valuesOf h path))

/-! ## Notions used in the proofs, and example graphs -/

/-- A walk for the adjacency function `adj`. -/
def VWalk (adj : T → List T) (w : List T) : Prop :=
  List.Chain' (fun x y => y ∈ adj x) w

/-- Heap `h'` holds every live node of `h` unchanged. -/
def Ext (h h' : Heap T) : Prop :=
  ∀ p n, deref h p = some n → deref h' p = some n

/-- Every pointer of `a` points to a live node whose value is stored in the graph. -/
def Valid (g : Graph T) (h : Heap T) (a : List Nat) : Prop :=
  ∀ p ∈ a, ∃ n, deref h p = some n ∧ n.value ∈ g.keys

/-- Heap `h1` has the size of `h` and holds at every address a node with the same adjacency
set and value as `h` does (the markers may differ). -/
def SameShape (h h1 : Heap T) : Prop :=
  h1.length = h.length ∧
  ∀ p, ((deref h1 p).map fun n => (n.adjacents, n.value)) =
       (deref h p).map fun n => (n.adjacents, n.value)

/-- The state one operation leaves. -/
def applyOp (s : Heap T × Graph T) : Op T → Heap T × Graph T
  | .insert value => ((insert s.1 s.2 value).1, (insert s.1 s.2 value).2.1)
  | .connect first second => ((connect s.1 s.2 first second).1, s.2)

/-- The state a sequence of operations leaves when no container changes its iteration
order on the way. -/
def runOps (ops : List (Op T)) (s : Heap T × Graph T) : Heap T × Graph T :=
  ops.foldl applyOp s

/-- Values 1, 2, 3 with the edges 1-2 and 2-3. -/
def exChain3 : Heap Nat × Graph Nat :=
  runOps [.insert 1, .insert 2, .insert 3, .connect 1 2, .connect 2 3] ([], { nodes := [] })

/-- Values 1 and 2, not connected. -/
def exTwoIsolated : Heap Nat × Graph Nat :=
  runOps [.insert 1, .insert 2] ([], { nodes := [] })

/-- The single value 1. -/
def exSingle : Heap Nat × Graph Nat :=
  runOps [.insert 1] ([], { nodes := [] })

/-- Values 1, 2, 3 with the single edge 1-2. -/
def exEdgeAndIsolated : Heap Nat × Graph Nat :=
  runOps [.insert 1, .insert 2, .insert 3, .connect 1 2] ([], { nodes := [] })

/-- What one operation does to the stored values and to the pairs `(x, y)` with `y` adjacent
to `x`, both kept as lists. -/
def absOp (s : List T × List (T × T)) : Op T → List T × List (T × T)
  | .insert value => (if value ∈ s.1 then s.1 else s.1 ++ [value], s.2)
  | .connect first second =>
    if first ∈ s.1 ∧ second ∈ s.1 then (s.1, s.2 ++ [(first, second), (second, first)])
    else s

/-- The stored values and adjacent pairs a sequence of operations yields. -/
def absRun (ops : List (Op T)) (s : List T × List (T × T)) : List T × List (T × T) :=
  ops.foldl absOp s

/-- The state `(h, g)` stores exactly the values `s.1`, and `y` is adjacent to `x` in it
exactly when `(x, y)` is in `s.2`. -/
def Abstracts (h : Heap T) (g : Graph T) (s : List T × List (T × T)) : Prop :=
  (∀ v, v ∈ g.keys ↔ v ∈ s.1) ∧ ∀ x y, y ∈ adjValues h g x ↔ (x, y) ∈ s.2

/-- The 4-cycle on the values 1, 2, 3, 4 with the edges 1-2, 2-3, 3-4, 1-4. -/
def exCycle4 : Heap Nat × Graph Nat :=
  runOps [.insert 1, .insert 2, .insert 3, .insert 4,
    .connect 1 2, .connect 2 3, .connect 3 4, .connect 1 4] ([], { nodes := [] })

/-- Heap `h'` holds below address `B` what `h` holds there. -/
def SameBelow (B : Nat) (h h' : Heap T) : Prop :=
  ∀ p, p < B → deref h' p = deref h p

/-- Every node of the graph lies at address `B` or above. -/
def Above (B : Nat) (g : Graph T) : Prop :=
  ∀ e ∈ g.nodes, B ≤ e.2

/-- The invariant of the second loop of `copyOther`, for the copy `g1` in the heap `hcur`:
the copy is well formed and lies at `B` or above, nothing below `B` differs from `h0`, and
every adjacency of the copy is one of the relation `E` (the adjacency of the source). -/
def CopyInv (E : T → T → Prop) (B : Nat) (h0 : Heap T) (g1 : Graph T) (hcur : Heap T) :
    Prop :=
  WF hcur g1 ∧ Above B g1 ∧ SameBelow B h0 hcur ∧
  ∀ x y, y ∈ adjValues hcur g1 x → E x y

/-- Two states hold the same graph: the same values, and the same adjacent values for
every value. -/
def SameGraph (h : Heap T) (g : Graph T) (h' : Heap T) (g' : Graph T) : Prop :=
  (∀ v, v ∈ g'.keys ↔ v ∈ g.keys) ∧
  ∀ v w, w ∈ adjValues h' g' v ↔ w ∈ adjValues h g v

/-- The graph `this` owns live nodes, each once, and none of them is a node of `other`:
the two are distinct graph objects of the heap. -/
def Separate (h : Heap T) (this other : Graph T) : Prop :=
  (this.nodes.map Prod.snd).Nodup ∧
  ∀ e ∈ this.nodes, (deref h e.2).isSome = true ∧ e.2 ∉ other.nodes.map Prod.snd

/-- A graph with the single value 9, and on top of it in the same heap the values 1, 2, 3
with the edges 1-2 and 2-3. -/
def exTwoGraphs : (Heap Nat × Graph Nat) × Graph Nat :=
  (runOps [.insert 1, .insert 2, .insert 3, .connect 1 2, .connect 2 3]
    ((insert [] { nodes := [] } 9).1, { nodes := [] }), (insert [] { nodes := [] } 9).2.1)

/-- Values 1, 2, 3, 4 with the edges 2-3, 1-2, 3-4, connected in this order, so that the
adjacency set of 2 iterates 3 before 1. -/
def exChain4 : Heap Nat × Graph Nat :=
  runOps [.insert 1, .insert 2, .insert 3, .insert 4,
    .connect 2 3, .connect 1 2, .connect 3 4] ([], { nodes := [] })

/-- No node of `g1` is a node of `g2`. -/
def Disjoint2 (g1 g2 : Graph T) : Prop :=
  ∀ e1 ∈ g1.nodes, ∀ e2 ∈ g2.nodes, e1.2 ≠ e2.2

/-- Every node of `g` is in `h'` exactly what it is in `h`: same value, same adjacency set,
same marker. -/
def Untouched (h h' : Heap T) (g : Graph T) : Prop :=
  ∀ e ∈ g.nodes, deref h' e.2 = deref h e.2

/-- The operations a client performs on the graph objects of a program; a graph object is
named by its position in the list of the objects constructed so far. -/
inductive WOp (T : Type) where
  | construct
  | insert (i : Nat) (value : T)
  | connect (i : Nat) (first second : T)
  | unmarkAll (i : Nat)
  | copy (i : Nat)
  | assign (i j : Nat)
  deriving DecidableEq, Repr

/-- The state one operation leaves: `construct` is the constructor `Graph()`, `copy i` the
copy constructor applied to object `i`, `assign i j` the assignment of object `j` to object
`i`; an operation on an object that does not exist leaves the state as it is. -/
def applyWOp (s : Heap T × List (Graph T)) : WOp T → Heap T × List (Graph T)
  | .construct => (s.1, s.2 ++ [{ nodes := [] }])
  | .insert i value =>
    match s.2[i]? with
    | none => s
    | some g => ((insert s.1 g value).1, s.2.set i (insert s.1 g value).2.1)
  | .connect i first second =>
    match s.2[i]? with
    | none => s
    | some g => ((connect s.1 g first second).1, s.2)
  | .unmarkAll i =>
    match s.2[i]? with
    | none => s
    | some g => ((unmarkAll s.1 g).1, s.2)
  | .copy i =>
    match s.2[i]? with
    | none => s
    | some g => ((copyConstruct s.1 g).1, s.2 ++ [(copyConstruct s.1 g).2.1])
  | .assign i j =>
    match s.2[i]?, s.2[j]? with
    | some this, some other =>
      ((assign s.1 this other (i == j)).1, s.2.set i (assign s.1 this other (i == j)).2.1)
    | _, _ => s

/-- Two program states that differ at most in the iteration order of the unordered
containers of the graph objects. -/
def WorldReorder (h : Heap T) (gs : List (Graph T)) (h' : Heap T) (gs' : List (Graph T)) :
    Prop :=
  h.length = h'.length ∧ (∀ p, CellReorder (deref h p) (deref h' p)) ∧
  gs.length = gs'.length ∧
  ∀ (i : Nat) (g g' : Graph T), gs[i]? = some g → gs'[i]? = some g' →
    g.nodes.Perm g'.nodes

/-- The program states reachable from a state without graph objects by constructing graphs
and by `insert`, `connect` (by value), `unmarkAll`, copy construction and assignment, the
unordered containers being free to change their iteration order at any time. -/
inductive Reach : Heap T → List (Graph T) → Prop where
  | init (h0 : Heap T) : Reach h0 []
  | step {h : Heap T} {gs : List (Graph T)} (op : WOp T) :
      Reach h gs → Reach (applyWOp (h, gs) op).1 (applyWOp (h, gs) op).2
  | reorder {h h' : Heap T} {gs gs' : List (Graph T)} :
      Reach h gs → WorldReorder h gs h' gs' → Reach h' gs'

/-- The invariant of a program state: every graph object is well formed, and no two graph
objects share a node. -/
def WInv (h : Heap T) (gs : List (Graph T)) : Prop :=
  (∀ (i : Nat) (g : Graph T), gs[i]? = some g → WF h g) ∧
  ∀ (i j : Nat) (g1 g2 : Graph T), i ≠ j → gs[i]? = some g1 → gs[j]? = some g2 → Disjoint2 g1 g2

/-- The state a sequence of operations on graph objects leaves when no container changes
its iteration order on the way. -/
def runWorld (ops : List (WOp T)) (s : Heap T × List (Graph T)) : Heap T × List (Graph T) :=
  ops.foldl applyWOp s

/-- A program with three graph objects: object 0 holds the edge 1-2, object 1 is made as a
copy of it, object 2 first holds the value 5 and is then assigned object 1. -/
def exWorld : Heap Nat × List (Graph Nat) :=
  runWorld [.construct, .insert 0 1, .insert 0 2, .connect 0 1 2, .unmarkAll 0, .copy 0,
    .construct, .insert 2 5, .assign 2 1, .assign 1 1, .connect 1 2 7] ([], [])

/-! ## The recursion exercises (Assignments 6, `Source.cpp`) -/

/-- The function `isPalindorome` of `Source.cpp`, on the string as the list of its
characters; `input.substr(1, input.length() - 2)` drops the first character and keeps the
next `length - 2`. -/
def isPalindorome (input : List Char) : Bool :=
  if input.length < 2 then true
  else if input[0]? = input[input.length - 1]? then
    isPalindorome ((input.drop 1).take (input.length - 2))
  else false
termination_by input.length
decreasing_by
  simp only [List.length_take, List.length_drop]
  omega

/-- The function `digitSum` of `Source.cpp`; `%` and `/` of C++ truncate towards zero. -/
def digitSum (input : Int) : Int :=
  if input = 0 then 0
  else input.tmod 10 + digitSum (input.tdiv 10)
termination_by input.natAbs
decreasing_by
  rw [Int.natAbs_tdiv]
  have hpos : 0 < input.natAbs := Int.natAbs_pos.2 (by assumption)
  exact Nat.div_lt_self hpos (by decide)

/-- The function `countways` of `Source.cpp`, on unbounded integers. -/
def countways (n : Int) : Int :=
  if n ≤ 1 then n
  else countways (n - 1) + countways (n - 2)
termination_by n.toNat
decreasing_by
  all_goals omega

/-- The function `waysToClimb` of `Source.cpp`. -/
def waysToClimb (s : Int) : Int :=
  countways (s + 1)

/-- All sequences of steps of size 1 or 2 whose sizes sum to `s`, each listed once. -/
def stepSequences : Nat → List (List Nat)
  | 0 => [[]]
  | 1 => [[1]]
  | s + 2 => (stepSequences (s + 1)).map (fun l => 1 :: l) ++
      (stepSequences s).map (fun l => 2 :: l)

/-! ## Lemmas -/

theorem vScan_of_mem (endV : T) (a : List T) :
    ∀ (nbrs : List T) (ts : List (List T)), endV ∈ nbrs →
      vScan endV a nbrs ts = .found (a ++ [endV]) := by
  intro nbrs
  induction nbrs with
  | nil => intro ts hm; simp at hm
  | cons w rest ih =>
    intro ts hm
    by_cases hw : w = endV
    · simp [vScan, hw]
    · have hm' : endV ∈ rest := by
        rcases List.mem_cons.1 hm with h | h
        · exact absurd h.symm hw
        · exact h
      simp [vScan, hw, ih _ hm']

theorem vScan_of_not_mem (endV : T) (a : List T) :
    ∀ (nbrs : List T) (ts : List (List T)), endV ∉ nbrs →
      vScan endV a nbrs ts = .next (ts ++ nbrs.map fun w => a ++ [w]) := by
  intro nbrs
  induction nbrs with
  | nil => intro ts _; simp [vScan]
  | cons w rest ih =>
    intro ts hm
    have hw : w ≠ endV := fun h => hm (by simp [h])
    have hm' : endV ∉ rest := fun h => hm (List.mem_cons_of_mem _ h)
    simp [vScan, hw, ih _ hm']

theorem vLoop_found (adj : T → List T) (endV : T) (fuel : Nat) (a : List T)
    (rest : List (List T)) (x : T) (hx : a.getLast? = some x) (he : endV ∈ adj x) :
    vLoop adj endV (fuel + 1) (a :: rest) = some (.ok (a ++ [endV])) := by
  simp [vLoop, hx, vScan_of_mem endV a _ _ he]

theorem vLoop_next (adj : T → List T) (endV : T) (fuel : Nat) (a : List T)
    (rest : List (List T)) (x : T) (hx : a.getLast? = some x) (he : endV ∉ adj x) :
    vLoop adj endV (fuel + 1) (a :: rest) =
      vLoop adj endV fuel ((a :: rest).dropLast ++ (adj x).map fun w => a ++ [w]) := by
  simp [vLoop, hx, vScan_of_not_mem endV a _ _ he]

/-- Once the front path has been scanned without success and is not removed, the loop
never returns a path. -/
theorem vLoop_stuck (adj : T → List T) (endV : T) (a : List T) (x : T)
    (hx : a.getLast? = some x) (he : endV ∉ adj x) :
    ∀ (fuel : Nat) (ts : List (List T)),
      (ts = [] ∨ ∃ rest, ts = a :: rest ∧ (rest ≠ [] ∨ adj x = [])) →
      ∀ b, vLoop adj endV fuel ts ≠ some (.ok b) := by
  intro fuel
  induction fuel with
  | zero => intro ts _ b; simp [vLoop]
  | succ fuel ih =>
    intro ts hts b
    rcases hts with rfl | ⟨rest, rfl, hrest⟩
    · simp [vLoop]
    · rw [vLoop_next adj endV fuel a rest x hx he]
      apply ih
      cases rest with
      | nil =>
        rcases hrest with h | h
        · exact absurd rfl h
        · left; simp [h]
      | cons r rs =>
        right
        refine ⟨(r :: rs).dropLast ++ (adj x).map fun w => a ++ [w], by simp [List.dropLast], ?_⟩
        by_cases hadj : adj x = []
        · right; exact hadj
        · left
          intro hcon
          rw [List.append_eq_nil] at hcon
          exact hadj (List.map_eq_nil_iff.1 hcon.2)

/-- In the same situation, when the front path has a neighbour to push, the loop never ends. -/
theorem vLoop_diverge (adj : T → List T) (endV : T) (a : List T) (x : T)
    (hx : a.getLast? = some x) (he : endV ∉ adj x) (hadj : adj x ≠ []) :
    ∀ (fuel : Nat) (rest : List (List T)), rest ≠ [] →
      vLoop adj endV fuel (a :: rest) = none := by
  intro fuel
  induction fuel with
  | zero => intro rest _; simp [vLoop]
  | succ fuel ih =>
    intro rest hrest
    rw [vLoop_next adj endV fuel a rest x hx he]
    cases rest with
    | nil => exact absurd rfl hrest
    | cons r rs =>
      have : (a :: r :: rs).dropLast ++ (adj x).map (fun w => a ++ [w]) =
          a :: ((r :: rs).dropLast ++ (adj x).map fun w => a ++ [w]) := by
        simp [List.dropLast]
      rw [this]
      apply ih
      intro hcon
      rw [List.append_eq_nil] at hcon
      exact hadj (List.map_eq_nil_iff.1 hcon.2)

theorem vwalk_snoc (adj : T → List T) (a : List T) (x y : T)
    (ha : VWalk adj a) (hx : a.getLast? = some x) (hy : y ∈ adj x) :
    VWalk adj (a ++ [y]) := by
  unfold VWalk at *
  rw [List.chain'_append]
  refine ⟨ha, List.chain'_singleton y, ?_⟩
  intro u hu v hv
  simp [hx] at hu
  simp at hv
  subst hu; subst hv
  exact hy

/-- Every path the loop returns starts where the stored paths start, ends at `endV`, and is
a walk. -/
theorem vLoop_walk (adj : T → List T) (start endV : T) :
    ∀ (fuel : Nat) (ts : List (List T)),
      (∀ a ∈ ts, a.head? = some start ∧ VWalk adj a) →
      ∀ b, vLoop adj endV fuel ts = some (.ok b) →
        b.head? = some start ∧ b.getLast? = some endV ∧ VWalk adj b := by
  intro fuel
  induction fuel with
  | zero => intro ts _ b hb; simp [vLoop] at hb
  | succ fuel ih =>
    intro ts hts b hb
    cases ts with
    | nil => simp [vLoop] at hb
    | cons a rest =>
      have ha := hts a (List.mem_cons_self _ _)
      cases hl : a.getLast? with
      | none =>
        rw [List.getLast?_eq_none_iff] at hl
        rw [hl] at ha; simp at ha
      | some x =>
        by_cases he : endV ∈ adj x
        · rw [vLoop_found adj endV fuel a rest x hl he] at hb
          simp at hb
          subst hb
          refine ⟨?_, by simp, vwalk_snoc adj a x endV ha.2 hl he⟩
          cases a with
          | nil => simp at hl
          | cons a0 as => simpa using ha.1
        · rw [vLoop_next adj endV fuel a rest x hl he] at hb
          refine ih _ ?_ b hb
          intro c hc
          rcases List.mem_append.1 hc with hc | hc
          · exact hts c (List.dropLast_subset _ hc)
          · rcases List.mem_map.1 hc with ⟨w, hw, rfl⟩
            refine ⟨?_, vwalk_snoc adj a x w ha.2 hl hw⟩
            cases a with
            | nil => simp at hl
            | cons a0 as => simpa using ha.1

theorem vwalk_split (adj : T → List T) (x endV : T) (hne : x ≠ endV) (w : List T)
    (hw : VWalk adj w) (hh : w.head? = some x) (hl : w.getLast? = some endV) :
    ∃ y w', w = x :: y :: w' ∧ y ∈ adj x ∧ VWalk adj (y :: w') ∧
      (y :: w').getLast? = some endV := by
  cases w with
  | nil => simp at hh
  | cons x' w' =>
    simp at hh; subst hh
    cases w' with
    | nil => simp at hl; exact absurd hl hne
    | cons y w'' =>
      refine ⟨y, w'', rfl, ?_, ?_, ?_⟩
      · exact (List.chain'_cons.1 hw).1
      · exact (List.chain'_cons.1 hw).2
      · simpa [List.getLast?_cons_cons] using hl

/-- From a queue holding the single path `a`, whatever the loop returns is no longer than
`a` extended by any walk from the last value of `a` to `endV`. -/
theorem vLoop_min (adj : T → List T) (endV : T) :
    ∀ (fuel : Nat) (a : List T) (x : T), a.getLast? = some x → x ≠ endV →
      ∀ b, vLoop adj endV fuel [a] = some (.ok b) →
      ∀ w, VWalk adj w → w.head? = some x → w.getLast? = some endV →
        b.length + 1 ≤ a.length + w.length := by
  intro fuel
  induction fuel with
  | zero => intro a x _ _ b hb; simp [vLoop] at hb
  | succ fuel ih =>
    intro a x hx hne b hb w hw hh hl
    obtain ⟨y, w', rfl, hy, hw', hl'⟩ := vwalk_split adj x endV hne w hw hh hl
    by_cases he : endV ∈ adj x
    · rw [vLoop_found adj endV fuel a [] x hx he] at hb
      simp at hb; subst hb
      simp
      omega
    · rw [vLoop_next adj endV fuel a [] x hx he] at hb
      have hye : y ≠ endV := fun h => he (h ▸ hy)
      cases hadj : adj x with
      | nil => rw [hadj] at hy; simp at hy
      | cons y1 more =>
        rw [hadj] at hb
        cases more with
        | nil =>
          have hyy : y = y1 := by rw [hadj] at hy; simpa using hy
          subst hyy
          have := ih (a ++ [y]) y (by simp) hye b (by simpa using hb) (y :: w') hw'
            (by simp) hl'
          simp at this ⊢
          omega
        | cons z more' =>
          -- two or more neighbours: the front path `a ++ [y1]` is never removed
          have hy1 : y1 ≠ endV := fun h => he (by rw [hadj]; simp [h])
          obtain ⟨y2, w'', hw2⟩ : ∃ y2 w'', w' = y2 :: w'' := by
            cases w' with
            | nil => simp at hl'; exact absurd hl' hye
            | cons y2 w'' => exact ⟨y2, w'', rfl⟩
          subst hw2
          cases fuel with
          | zero => simp [vLoop] at hb
          | succ fuel =>
            simp only [List.dropLast_single, List.nil_append, List.map_cons] at hb
            by_cases he1 : endV ∈ adj y1
            · rw [vLoop_found adj endV fuel (a ++ [y1]) _ y1 (by simp) he1] at hb
              simp at hb; subst hb
              simp
              omega
            · exact absurd hb (vLoop_stuck adj endV (a ++ [y1]) y1 (by simp) he1 _ _
                (Or.inr ⟨_, rfl, Or.inl (by simp)⟩) b)

theorem deref_eq_some_iff (h : Heap T) (p : Nat) (n : Node T) :
    deref h p = some n ↔ h[p]? = some (some n) := by
  unfold deref
  split
  · next m hm => rw [hm]; simp
  · next hm =>
    constructor
    · intro h'; simp at h'
    · intro h'; exact absurd h' (hm n)

theorem deref_lt {h : Heap T} {p : Nat} {n : Node T} (hd : deref h p = some n) :
    p < h.length := by
  rw [deref_eq_some_iff] at hd
  exact (List.getElem?_eq_some_iff.1 hd).1

theorem deref_append_left {h : Heap T} {p : Nat} {n : Node T} (l : Heap T)
    (hd : deref h p = some n) : deref (h ++ l) p = some n := by
  have hlt := deref_lt hd
  rw [deref_eq_some_iff] at hd ⊢
  rw [List.getElem?_append_left hlt]; exact hd

theorem deref_append_of_lt (h l : Heap T) {p : Nat} (hlt : p < h.length) :
    deref (h ++ l) p = deref h p := by
  unfold deref
  rw [List.getElem?_append_left hlt]

theorem deref_alloc_new (h : Heap T) (n : Node T) :
    deref (h ++ [some n]) h.length = some n := by
  rw [deref_eq_some_iff]
  simp

theorem deref_store_eq {h : Heap T} {p : Nat} (m : Node T) (hlt : p < h.length) :
    deref (store h p m) p = some m := by
  rw [deref_eq_some_iff]
  simp [store, hlt]

theorem deref_store_ne (h : Heap T) {p q : Nat} (m : Node T) (hne : p ≠ q) :
    deref (store h p m) q = deref h q := by
  unfold deref store
  rw [List.getElem?_set_ne hne]

theorem Ext.self (h : Heap T) : Ext h h := fun _ _ hd => hd

theorem Ext.comp {h1 h2 h3 : Heap T} (h12 : Ext h1 h2) (h23 : Ext h2 h3) : Ext h1 h3 :=
  fun p n hd => h23 p n (h12 p n hd)

theorem Ext.append (h l : Heap T) : Ext h (h ++ l) :=
  fun _ _ hd => deref_append_left l hd

theorem Valid.ext {g : Graph T} {h h' : Heap T} {a : List Nat} (hv : Valid g h a)
    (he : Ext h h') : Valid g h' a := by
  intro p hp
  obtain ⟨n, hn, hk⟩ := hv p hp
  exact ⟨n, he p n hn, hk⟩

theorem valuesOf_nil (h : Heap T) : valuesOf h [] = [] := rfl

theorem valuesOf_append (h : Heap T) (a b : List Nat) :
    valuesOf h (a ++ b) = valuesOf h a ++ valuesOf h b := by
  simp [valuesOf, List.filterMap_append]

theorem valuesOf_cons_of_deref {h : Heap T} {p : Nat} {n : Node T} (a : List Nat)
    (hd : deref h p = some n) : valuesOf h (p :: a) = n.value :: valuesOf h a := by
  simp [valuesOf, List.filterMap_cons, hd]

theorem valuesOf_single_of_deref {h : Heap T} {p : Nat} {n : Node T}
    (hd : deref h p = some n) : valuesOf h [p] = [n.value] := by
  rw [valuesOf_cons_of_deref [] hd]; rfl

theorem valuesOf_ext {g : Graph T} {h h' : Heap T} {a : List Nat} (hv : Valid g h a)
    (he : Ext h h') : valuesOf h' a = valuesOf h a := by
  induction a with
  | nil => rfl
  | cons p a ih =>
    obtain ⟨n, hn, _⟩ := hv p (List.mem_cons_self _ _)
    rw [valuesOf_cons_of_deref a hn, valuesOf_cons_of_deref a (he p n hn),
      ih (fun q hq => hv q (List.mem_cons_of_mem _ hq))]

theorem valuesOf_length {g : Graph T} {h : Heap T} {a : List Nat} (hv : Valid g h a) :
    (valuesOf h a).length = a.length := by
  induction a with
  | nil => rfl
  | cons p a ih =>
    obtain ⟨n, hn, _⟩ := hv p (List.mem_cons_self _ _)
    rw [valuesOf_cons_of_deref a hn]
    simp [ih (fun q hq => hv q (List.mem_cons_of_mem _ hq))]

theorem valuesOf_getLast {h : Heap T} {a : List Nat} {last : Nat} {n : Node T}
    (hl : a.getLast? = some last) (hd : deref h last = some n) :
    (valuesOf h a).getLast? = some n.value := by
  obtain ⟨ys, rfl⟩ := List.getLast?_eq_some_iff.1 hl
  rw [valuesOf_append, valuesOf_single_of_deref hd]
  simp

theorem mem_valuesOf {h : Heap T} {a : List Nat} {v : T} :
    v ∈ valuesOf h a ↔ ∃ p ∈ a, ∃ n, deref h p = some n ∧ n.value = v := by
  simp [valuesOf, List.mem_filterMap]

/-- The `for` loop on the heap and the loop on values run alike. -/
theorem scanNeighbors_sim (g : Graph T) (endV : T) (h1 : Heap T) (a : List Nat) :
    ∀ (qs : List Nat) (h : Heap T) (ts : List (List Nat)),
      Ext h1 h → Valid g h1 qs → Valid g h a → (∀ c ∈ ts, Valid g h c) →
      (∃ h' b, scanNeighbors endV a qs h ts = (h', .ok (.found b)) ∧ Ext h h' ∧
          Valid g h' b ∧
          vScan endV (valuesOf h a) (valuesOf h1 qs) (ts.map (valuesOf h)) =
            .found (valuesOf h' b)) ∨
      (∃ h' ts', scanNeighbors endV a qs h ts = (h', .ok (.next ts')) ∧ Ext h h' ∧
          (∀ c ∈ ts', Valid g h' c) ∧
          vScan endV (valuesOf h a) (valuesOf h1 qs) (ts.map (valuesOf h)) =
            .next (ts'.map (valuesOf h'))) := by
  intro qs
  induction qs with
  | nil =>
    intro h ts _ _ _ hts
    right
    exact ⟨h, ts, rfl, Ext.self h, hts, rfl⟩
  | cons q rest ih =>
    intro h ts he hq ha hts
    obtain ⟨nq, hnq, hkey⟩ := hq q (List.mem_cons_self _ _)
    have hnq' : deref h q = some nq := he q nq hnq
    have hext : Ext h (h ++ [some (newNode nq.value)]) := Ext.append h _
    have hnew : deref (h ++ [some (newNode nq.value)]) h.length = some (newNode nq.value) :=
      deref_alloc_new h _
    have hb : Valid g (h ++ [some (newNode nq.value)]) (a ++ [h.length]) := by
      intro p hp
      rcases List.mem_append.1 hp with hp | hp
      · exact (ha.ext hext) p hp
      · simp at hp; subst hp
        exact ⟨_, hnew, hkey⟩
    have hbv : valuesOf (h ++ [some (newNode nq.value)]) (a ++ [h.length]) =
        valuesOf h a ++ [nq.value] := by
      rw [valuesOf_append, valuesOf_ext ha hext, valuesOf_single_of_deref hnew]; rfl
    rw [valuesOf_cons_of_deref rest hnq]
    by_cases hv : nq.value = endV
    · left
      refine ⟨h ++ [some (newNode nq.value)], a ++ [h.length], ?_, hext, hb, ?_⟩
      · simp [scanNeighbors, hnq', alloc, hv]
      · rw [hbv]; simp [vScan, hv]
    · have hts' : ∀ c ∈ ts ++ [a ++ [h.length]],
          Valid g (h ++ [some (newNode nq.value)]) c := by
        intro c hc
        rcases List.mem_append.1 hc with hc | hc
        · exact (hts c hc).ext hext
        · simp at hc; subst hc; exact hb
      have hmap : (ts ++ [a ++ [h.length]]).map (valuesOf (h ++ [some (newNode nq.value)])) =
          ts.map (valuesOf h) ++ [valuesOf h a ++ [nq.value]] := by
        rw [List.map_append, List.map_singleton, hbv]
        congr 1
        exact List.map_congr_left fun c hc => valuesOf_ext (hts c hc) hext
      have hstep : scanNeighbors endV a (q :: rest) h ts =
          scanNeighbors endV a rest (h ++ [some (newNode nq.value)])
            (ts ++ [a ++ [h.length]]) := by
        simp [scanNeighbors, hnq', alloc, hv]
      have hvstep : vScan endV (valuesOf h a) (nq.value :: valuesOf h1 rest)
            (ts.map (valuesOf h)) =
          vScan endV (valuesOf h a) (valuesOf h1 rest)
            (ts.map (valuesOf h) ++ [valuesOf h a ++ [nq.value]]) := by
        simp [vScan, hv]
      rw [hstep, hvstep, ← hmap, ← valuesOf_ext ha hext]
      rcases ih (h ++ [some (newNode nq.value)]) (ts ++ [a ++ [h.length]])
          (he.comp hext) (fun p hp => hq p (List.mem_cons_of_mem _ hp)) (ha.ext hext) hts'
        with ⟨h', b, e1, e2, e3, e4⟩ | ⟨h', ts', e1, e2, e3, e4⟩
      · exact Or.inl ⟨h', b, e1, hext.comp e2, e3, e4⟩
      · exact Or.inr ⟨h', ts', e1, hext.comp e2, e3, e4⟩

theorem mem_of_getLast?_eq {α : Type} {a : List α} {x : α} (hl : a.getLast? = some x) :
    x ∈ a := by
  obtain ⟨ys, rfl⟩ := List.getLast?_eq_some_iff.1 hl
  simp

theorem findEntry_eq_none_iff (l : List (T × Nat)) (v : T) :
    findEntry l v = none ↔ v ∉ l.map Prod.fst := by
  induction l with
  | nil => simp [findEntry]
  | cons e rest ih =>
    obtain ⟨k, p⟩ := e
    by_cases hk : k = v
    · simp [findEntry, hk]
    · have hk' : ¬ v = k := fun h => hk h.symm
      simp only [findEntry, hk, if_false, ih, List.map_cons, List.mem_cons, hk', false_or]

theorem findEntry_some_mem {l : List (T × Nat)} {v : T} {p : Nat}
    (hf : findEntry l v = some p) : (v, p) ∈ l := by
  induction l with
  | nil => simp [findEntry] at hf
  | cons e rest ih =>
    obtain ⟨k, q⟩ := e
    by_cases hk : k = v
    · simp [findEntry, hk] at hf
      subst hf; subst hk
      exact List.mem_cons_self _ _
    · simp [findEntry, hk] at hf
      exact List.mem_cons_of_mem _ (ih hf)

theorem findEntry_of_mem {l : List (T × Nat)} {v : T} {p : Nat}
    (hnd : (l.map Prod.fst).Nodup) (hm : (v, p) ∈ l) : findEntry l v = some p := by
  induction l with
  | nil => simp at hm
  | cons e rest ih =>
    obtain ⟨k, q⟩ := e
    rw [List.map_cons, List.nodup_cons] at hnd
    rcases List.mem_cons.1 hm with h | h
    · injection h with h1 h2
      subst h1; subst h2
      simp [findEntry]
    · have hk : k ≠ v := by
        intro hkv
        subst hkv
        exact hnd.1 (List.mem_map.2 ⟨(k, p), h, rfl⟩)
      simp [findEntry, hk, ih hnd.2 h]

theorem find_eq_none_iff (g : Graph T) (v : T) : find g v = none ↔ v ∉ g.keys :=
  findEntry_eq_none_iff g.nodes v

theorem find_some_mem {g : Graph T} {v : T} {p : Nat} (hf : find g v = some p) :
    (v, p) ∈ g.nodes :=
  findEntry_some_mem hf

theorem find_isSome_of_mem_keys {g : Graph T} {v : T} (hv : v ∈ g.keys) :
    ∃ p, find g v = some p := by
  cases hf : find g v with
  | none => exact absurd hv ((find_eq_none_iff g v).1 hf)
  | some p => exact ⟨p, rfl⟩

theorem mem_keys_of_mem_nodes {g : Graph T} {v : T} {p : Nat} (hm : (v, p) ∈ g.nodes) :
    v ∈ g.keys :=
  List.mem_map.2 ⟨(v, p), hm, rfl⟩

theorem mem_keys_of_find {g : Graph T} {v : T} {p : Nat} (hf : find g v = some p) :
    v ∈ g.keys :=
  mem_keys_of_mem_nodes (find_some_mem hf)

theorem WF.find_of_mem {h : Heap T} {g : Graph T} (hwf : WF h g) {v : T} {p : Nat}
    (hm : (v, p) ∈ g.nodes) : find g v = some p :=
  findEntry_of_mem hwf.keys_nodup hm

/-- In a well-formed graph the node of a stored value is live, holds that value, and its
adjacency set points to live nodes of stored values. -/
theorem WF.node_of_find {h : Heap T} {g : Graph T} (hwf : WF h g) {v : T} {p : Nat}
    (hf : find g v = some p) :
    ∃ n, deref h p = some n ∧ n.value = v ∧ Valid g h n.adjacents := by
  obtain ⟨n, hn, hv, _, hadj⟩ := hwf.node v p (find_some_mem hf)
  refine ⟨n, hn, hv, ?_⟩
  intro q hq
  obtain ⟨m, hm, hmem, _⟩ := hadj q hq
  exact ⟨m, hm, mem_keys_of_mem_nodes hmem⟩

theorem adjValues_of_find {h : Heap T} {g : Graph T} {v : T} {p : Nat} {n : Node T}
    (hf : find g v = some p) (hn : deref h p = some n) :
    adjValues h g v = valuesOf h n.adjacents := by
  simp [adjValues, hf, hn]

theorem searchLoop_step (g : Graph T) (endV : T) (fuel : Nat) (h : Heap T) (a : List Nat)
    (rest : List (List Nat)) {last p : Nat} {nl np : Node T}
    (hl : a.getLast? = some last) (hnl : deref h last = some nl)
    (hf : find g nl.value = some p) (hnp : deref h p = some np) :
    searchLoop g endV (fuel + 1) h (a :: rest) =
      match scanNeighbors endV a np.adjacents h (a :: rest).dropLast with
      | (h', .error e) => some (h', .error e)
      | (h', .ok (.found b)) => some (h', .ok b)
      | (h', .ok (.next tempStorage')) => searchLoop g endV fuel h' tempStorage' := by
  simp only [searchLoop, hl, hnl, hf, hnp]

theorem vLoop_step (adj : T → List T) (endV : T) (fuel : Nat) (a : List T)
    (rest : List (List T)) {x : T} (hx : a.getLast? = some x) :
    vLoop adj endV (fuel + 1) (a :: rest) =
      match vScan endV a (adj x) (a :: rest).dropLast with
      | .found b => some (.ok b)
      | .next tempStorage' => vLoop adj endV fuel tempStorage' := by
  simp only [vLoop, hx]

/-- The loop of `shortestPath` on a well-formed graph and the loop on values run alike. -/
theorem searchLoop_sim (g : Graph T) (endV : T) (h1 : Heap T) (hwf : WF h1 g) :
    ∀ (fuel : Nat) (h : Heap T) (ts : List (List Nat)),
      Ext h1 h → (∀ c ∈ ts, Valid g h c) →
      outcomeValues (searchLoop g endV fuel h ts) =
          vLoop (adjValues h1 g) endV fuel (ts.map (valuesOf h)) ∧
      ∀ h' path, searchLoop g endV fuel h ts = some (h', .ok path) →
          Ext h h' ∧ Valid g h' path := by
  intro fuel
  induction fuel with
  | zero => intro h ts _ _; simp [searchLoop, vLoop, outcomeValues]
  | succ fuel ih =>
    intro h ts he hts
    cases ts with
    | nil => simp [searchLoop, vLoop, outcomeValues]
    | cons a rest =>
      have ha : Valid g h a := hts a (List.mem_cons_self _ _)
      cases hl : a.getLast? with
      | none =>
        rw [List.getLast?_eq_none_iff] at hl
        subst hl
        simp [searchLoop, vLoop, outcomeValues, valuesOf]
      | some last =>
        obtain ⟨nl, hnl, hkey⟩ := ha last (mem_of_getLast?_eq hl)
        obtain ⟨p, hf⟩ := find_isSome_of_mem_keys hkey
        obtain ⟨np, hnp, _, hadj⟩ := hwf.node_of_find hf
        have hx : (valuesOf h a).getLast? = some nl.value := valuesOf_getLast hl hnl
        rw [searchLoop_step g endV fuel h a rest hl hnl hf (he p np hnp), List.map_cons,
          vLoop_step _ endV fuel _ _ hx, adjValues_of_find hf hnp, ← List.map_cons,
          ← List.map_dropLast]
        have hdl : ∀ c ∈ (a :: rest).dropLast, Valid g h c :=
          fun c hc => hts c (List.dropLast_subset _ hc)
        rcases scanNeighbors_sim g endV h1 a np.adjacents h (a :: rest).dropLast he hadj ha hdl
          with ⟨h', b, e1, e2, e3, e4⟩ | ⟨h', ts', e1, e2, e3, e4⟩
        · rw [e1, e4]
          refine ⟨by simp [outcomeValues], ?_⟩
          intro h'' path hp
          simp at hp
          obtain ⟨rfl, rfl⟩ := hp
          exact ⟨e2, e3⟩
        · rw [e1, e4]
          obtain ⟨i1, i2⟩ := ih h' ts' (he.comp e2) e3
          refine ⟨i1, ?_⟩
          intro h'' path hp
          obtain ⟨j1, j2⟩ := i2 h'' path hp
          exact ⟨e2.comp j1, j2⟩

theorem SameShape.same (h : Heap T) : SameShape h h := ⟨rfl, fun _ => rfl⟩

theorem SameShape.chain {h1 h2 h3 : Heap T} (h12 : SameShape h1 h2) (h23 : SameShape h2 h3) :
    SameShape h1 h3 :=
  ⟨h23.1.trans h12.1, fun p => (h23.2 p).trans (h12.2 p)⟩

theorem SameShape.deref_some {h h1 : Heap T} (hs : SameShape h h1) {p : Nat} {n : Node T}
    (hn : deref h p = some n) :
    ∃ n1, Csc340.deref h1 p = some n1 ∧ n1.adjacents = n.adjacents ∧ n1.value = n.value := by
  have := hs.2 p
  rw [hn] at this
  cases h1p : Csc340.deref h1 p with
  | none => rw [h1p] at this; simp at this
  | some n1 =>
    rw [h1p] at this
    simp at this
    exact ⟨n1, rfl, this.1, this.2⟩

theorem valuesOf_sameShape {h h1 : Heap T} (hs : SameShape h h1) (a : List Nat) :
    valuesOf h1 a = valuesOf h a := by
  unfold valuesOf
  congr 1
  funext p
  have := congrArg (Option.map Prod.snd) (hs.2 p)
  simpa [Option.map_map, Function.comp_def] using this

theorem adjValues_sameShape {h h1 : Heap T} (hs : SameShape h h1) (g : Graph T) (v : T) :
    adjValues h1 g v = adjValues h g v := by
  unfold adjValues
  cases hf : find g v with
  | none => rfl
  | some p =>
    simp only
    cases hn : Csc340.deref h p with
    | none =>
      have := hs.2 p
      rw [hn] at this
      cases h1p : Csc340.deref h1 p with
      | none => rfl
      | some n1 => rw [h1p] at this; simp at this
    | some n =>
      obtain ⟨n1, e1, e2, _⟩ := hs.deref_some hn
      simp only [e1, e2]
      exact valuesOf_sameShape hs _

theorem WF.sameShape {h h1 : Heap T} {g : Graph T} (hwf : WF h g) (hs : SameShape h h1) :
    WF h1 g := by
  refine ⟨hwf.keys_nodup, ?_⟩
  intro v p hm
  obtain ⟨n, hn, hv, hnd, hadj⟩ := hwf.node v p hm
  obtain ⟨n1, e1, e2, e3⟩ := hs.deref_some hn
  refine ⟨n1, e1, e3.trans hv, e2 ▸ hnd, ?_⟩
  intro q hq
  rw [e2] at hq
  obtain ⟨m, hm1, hm2, hm3⟩ := hadj q hq
  obtain ⟨m1, f1, f2, f3⟩ := hs.deref_some hm1
  exact ⟨m1, f1, f3 ▸ hm2, f2 ▸ hm3⟩

theorem sameShape_store {h : Heap T} {p : Nat} {n m : Node T} (hn : deref h p = some n)
    (ha : m.adjacents = n.adjacents) (hv : m.value = n.value) :
    SameShape h (store h p m) := by
  refine ⟨by simp [store], ?_⟩
  intro q
  by_cases hq : p = q
  · subst hq
    rw [deref_store_eq m (deref_lt hn), hn]
    simp [ha, hv]
  · rw [deref_store_ne h m hq]

/-- The loop of `unmarkAll` ends normally when every entry points to a live node, and it
changes no adjacency set and no value. -/
theorem unmarkAllLoop_spec :
    ∀ (l : List (T × Nat)) (h : Heap T), (∀ e ∈ l, ∃ n, deref h e.2 = some n) →
      ∃ h1, unmarkAllLoop l h = (h1, .ok ()) ∧ SameShape h h1 := by
  intro l
  induction l with
  | nil => intro h _; exact ⟨h, rfl, SameShape.same h⟩
  | cons e rest ih =>
    intro h hl
    obtain ⟨v, p⟩ := e
    obtain ⟨n, hn⟩ := hl (v, p) (List.mem_cons_self _ _)
    have hs : SameShape h (store h p { n with marked := some false }) :=
      sameShape_store hn rfl rfl
    obtain ⟨h1, e1, e2⟩ := ih (store h p { n with marked := some false }) (by
      intro e he
      obtain ⟨m, hm⟩ := hl e (List.mem_cons_of_mem _ he)
      obtain ⟨m1, hm1, _⟩ := hs.deref_some hm
      exact ⟨m1, hm1⟩)
    refine ⟨h1, ?_, hs.chain e2⟩
    simp only [unmarkAllLoop, hn]
    exact e1

theorem unmarkAll_spec {h : Heap T} {g : Graph T} (hwf : WF h g) :
    ∃ h1, unmarkAll h g = (h1, .ok ()) ∧ SameShape h h1 := by
  apply unmarkAllLoop_spec
  intro e he
  obtain ⟨n, hn, _⟩ := hwf.node e.1 e.2 he
  exact ⟨n, hn⟩

theorem adjValues_ext {h h' : Heap T} {g : Graph T} (hwf : WF h g) (he : Ext h h') (v : T) :
    adjValues h' g v = adjValues h g v := by
  cases hf : find g v with
  | none => simp [adjValues, hf]
  | some p =>
    obtain ⟨n, hn, _, hadj⟩ := hwf.node_of_find hf
    rw [adjValues_of_find hf hn, adjValues_of_find hf (he p n hn), valuesOf_ext hadj he]

/-- On a well-formed graph holding `start` and `endV`, `shortestPath` runs like the loop on
values started from the single path `[start]`; a returned path consists of live nodes, and
the adjacency of the graph is the same after the call. -/
theorem shortestPath_sim {h : Heap T} {g : Graph T} (hwf : WF h g) {start endV : T}
    (hs : start ∈ g.keys) (he : endV ∈ g.keys) (fuel : Nat) :
    outcomeValues (shortestPath h g start endV fuel) =
        vLoop (adjValues h g) endV fuel [[start]] ∧
    ∀ h' path, shortestPath h g start endV fuel = some (h', .ok path) →
        (valuesOf h' path).length = path.length ∧ ∀ v, adjValues h' g v = adjValues h g v := by
  obtain ⟨ps, hps⟩ := find_isSome_of_mem_keys hs
  obtain ⟨pe, hpe⟩ := find_isSome_of_mem_keys he
  obtain ⟨h1, hu, hsh⟩ := unmarkAll_spec hwf
  have hwf1 : WF h1 g := hwf.sameShape hsh
  obtain ⟨ns, hns, hval, _⟩ := hwf1.node_of_find hps
  have hsp : shortestPath h g start endV fuel =
      searchLoop g endV fuel (h1 ++ [some (newNode start)]) [[h1.length]] := by
    simp only [shortestPath, hps, hpe, hu, hns, alloc, hval]
  have hext : Ext h1 (h1 ++ [some (newNode start)]) := Ext.append _ _
  have hnew : deref (h1 ++ [some (newNode start)]) h1.length = some (newNode start) :=
    deref_alloc_new _ _
  have hvalid : ∀ c ∈ [[h1.length]], Valid g (h1 ++ [some (newNode start)]) c := by
    intro c hc
    simp at hc; subst hc
    intro p hp
    simp at hp; subst hp
    exact ⟨_, hnew, hs⟩
  obtain ⟨s1, s2⟩ := searchLoop_sim g endV h1 hwf1 fuel _ _ hext hvalid
  have hadj : adjValues h1 g = adjValues h g := funext fun v => adjValues_sameShape hsh g v
  rw [hsp]
  refine ⟨?_, ?_⟩
  · rw [s1, hadj, List.map_singleton, valuesOf_single_of_deref hnew]
    rfl
  · intro h' path hp
    obtain ⟨t1, t2⟩ := s2 h' path hp
    refine ⟨valuesOf_length t2, fun v => ?_⟩
    rw [adjValues_ext hwf1 (hext.comp t1) v, adjValues_sameShape hsh]

theorem mem_setInsert (s : List Nat) (x y : Nat) : y ∈ setInsert s x ↔ y ∈ s ∨ y = x := by
  unfold setInsert
  split
  · next hx =>
    constructor
    · exact Or.inl
    · rintro (h | h)
      · exact h
      · exact h ▸ hx
  · simp

theorem nodup_setInsert {s : List Nat} (x : Nat) (hs : s.Nodup) : (setInsert s x).Nodup := by
  unfold setInsert
  split
  · exact hs
  · next hx =>
    rw [List.nodup_append]
    refine ⟨hs, List.nodup_singleton x, ?_⟩
    intro a ha hb
    simp at hb
    subst hb
    exact hx ha

theorem length_store (h : Heap T) (p : Nat) (m : Node T) : (store h p m).length = h.length := by
  simp [store]

/-- What `connect(Node<T>*, Node<T>*)` does to the heap when both pointers are live: every
node keeps its value and marker, the adjacency set of `p` gains `q`, that of `q` gains `p`,
and nothing else changes. -/
theorem connectPtr_spec {h : Heap T} {p q : Nat} {n1 n2 : Node T}
    (hp : deref h p = some n1) (hq : deref h q = some n2) :
    ∃ h2, connectPtr h p q = (h2, .ok ()) ∧ h2.length = h.length ∧
      ∀ r, (deref h r = none → deref h2 r = none) ∧
        ∀ n, deref h r = some n → ∃ n', deref h2 r = some n' ∧ n'.value = n.value ∧
          n'.marked = n.marked ∧ (n.adjacents.Nodup → n'.adjacents.Nodup) ∧
          (r ≠ p → r ≠ q → n' = n) ∧
          ∀ x, x ∈ n'.adjacents ↔ x ∈ n.adjacents ∨ (r = p ∧ x = q) ∨ (r = q ∧ x = p) := by
  have hplt := deref_lt hp
  have hqlt := deref_lt hq
  by_cases hpq : p = q
  · subst hpq
    have hn : n2 = n1 := by rw [hp] at hq; exact (Option.some.inj hq).symm
    subst hn
    have h1p : deref (store h p { n2 with adjacents := setInsert n2.adjacents p }) p =
        some { n2 with adjacents := setInsert n2.adjacents p } := deref_store_eq _ hplt
    have hc : connectPtr h p p =
        (store (store h p { n2 with adjacents := setInsert n2.adjacents p }) p
          { n2 with adjacents := setInsert (setInsert n2.adjacents p) p }, .ok ()) := by
      simp only [connectPtr, hp, h1p]
    refine ⟨_, hc, by simp [length_store], ?_⟩
    intro r
    by_cases hr : p = r
    · subst hr
      refine ⟨fun hnone => by rw [hp] at hnone; simp at hnone, ?_⟩
      intro n hn
      rw [hp] at hn
      have hn := Option.some.inj hn
      subst hn
      refine ⟨_, deref_store_eq _ (by simp [length_store, hplt]), rfl, rfl, ?_, ?_, ?_⟩
      · intro hnd; exact nodup_setInsert _ (nodup_setInsert _ hnd)
      · intro h1 _; exact absurd rfl h1
      · intro x
        simp only [mem_setInsert]
        tauto
    · refine ⟨fun hnone => ?_, ?_⟩
      · rw [deref_store_ne _ _ hr, deref_store_ne _ _ hr]; exact hnone
      · intro n hn
        refine ⟨n, ?_, rfl, rfl, id, fun _ _ => rfl, ?_⟩
        · rw [deref_store_ne _ _ hr, deref_store_ne _ _ hr]; exact hn
        · intro x
          have : ¬ r = p := fun e => hr e.symm
          simp [this]
  · have h1q : deref (store h p { n1 with adjacents := setInsert n1.adjacents q }) q =
        some n2 := by rw [deref_store_ne _ _ hpq]; exact hq
    have hc : connectPtr h p q =
        (store (store h p { n1 with adjacents := setInsert n1.adjacents q }) q
          { n2 with adjacents := setInsert n2.adjacents p }, .ok ()) := by
      simp only [connectPtr, hp, h1q]
    refine ⟨_, hc, by simp [length_store], ?_⟩
    intro r
    by_cases hrq : q = r
    · subst hrq
      refine ⟨fun hnone => by rw [hq] at hnone; simp at hnone, ?_⟩
      intro n hn
      rw [hq] at hn
      have hn := Option.some.inj hn
      subst hn
      refine ⟨_, deref_store_eq _ (by simp [length_store, hqlt]), rfl, rfl, ?_, ?_, ?_⟩
      · intro hnd; exact nodup_setInsert _ hnd
      · intro _ h2; exact absurd rfl h2
      · intro x
        have : ¬ q = p := fun e => hpq e.symm
        simp only [mem_setInsert, this, false_and, false_or, true_and]
    · by_cases hrp : p = r
      · subst hrp
        refine ⟨fun hnone => by rw [hp] at hnone; simp at hnone, ?_⟩
        intro n hn
        rw [hp] at hn
        have hn := Option.some.inj hn
        subst hn
        refine ⟨{ n1 with adjacents := setInsert n1.adjacents q }, ?_, rfl, rfl, ?_, ?_, ?_⟩
        · rw [deref_store_ne _ _ hrq]; exact deref_store_eq _ hplt
        · intro hnd; exact nodup_setInsert _ hnd
        · intro h1 _; exact absurd rfl h1
        · intro x
          simp only [mem_setInsert, hpq, false_and, or_false, true_and]
      · refine ⟨fun hnone => ?_, ?_⟩
        · rw [deref_store_ne _ _ hrq, deref_store_ne _ _ hrp]; exact hnone
        · intro n hn
          refine ⟨n, ?_, rfl, rfl, id, fun _ _ => rfl, ?_⟩
          · rw [deref_store_ne _ _ hrq, deref_store_ne _ _ hrp]; exact hn
          · intro x
            have h1 : ¬ r = p := fun e => hrp e.symm
            have h2 : ¬ r = q := fun e => hrq e.symm
            simp [h1, h2]

theorem connect_of_find {h : Heap T} {g : Graph T} {a b : T} {p q : Nat}
    (ha : find g a = some p) (hb : find g b = some q) :
    connect h g a b = connectPtr h p q := by
  simp only [connect, ha, hb]

theorem connect_of_not_mem {h : Heap T} {g : Graph T} {a b : T}
    (hab : a ∉ g.keys ∨ b ∉ g.keys) :
    connect h g a b = (h, .error .NonExistentNodeException) := by
  rcases hab with hn | hn
  · have := (find_eq_none_iff g a).2 hn
    simp only [connect, this]
  · have := (find_eq_none_iff g b).2 hn
    cases hfa : find g a <;> simp only [connect, this, hfa]

theorem insert_of_mem {h : Heap T} {g : Graph T} {v : T} (hv : v ∈ g.keys) :
    insert h g v = (h, g, none) := by
  obtain ⟨p, hp⟩ := find_isSome_of_mem_keys hv
  simp only [insert, hp]

theorem insert_of_not_mem {h : Heap T} {g : Graph T} {v : T} (hv : v ∉ g.keys) :
    insert h g v =
      (h ++ [some (newNode v)], { nodes := g.nodes ++ [(v, h.length)] }, some h.length) := by
  have := (find_eq_none_iff g v).2 hv
  simp only [insert, this, alloc]

theorem WF.empty (h : Heap T) : WF h ({ nodes := [] } : Graph T) :=
  ⟨by simp [Graph.keys], fun v p hm => by simp at hm⟩

theorem WF.insert {h : Heap T} {g : Graph T} (hwf : WF h g) (v : T) :
    WF (insert h g v).1 (insert h g v).2.1 := by
  by_cases hv : v ∈ g.keys
  · rw [insert_of_mem hv]; exact hwf
  · rw [insert_of_not_mem hv]
    have hext : Ext h (h ++ [some (newNode v)]) := Ext.append _ _
    refine ⟨?_, ?_⟩
    · simp only [Graph.keys, List.map_append, List.map_cons, List.map_nil]
      rw [List.nodup_append]
      refine ⟨hwf.keys_nodup, List.nodup_singleton v, ?_⟩
      intro a ha hb
      simp at hb; subst hb
      exact hv ha
    · intro w p hm
      rcases List.mem_append.1 hm with hm | hm
      · obtain ⟨n, hn, hval, hnd, hadj⟩ := hwf.node w p hm
        refine ⟨n, hext p n hn, hval, hnd, ?_⟩
        intro q hq
        obtain ⟨m, hm1, hm2, hm3⟩ := hadj q hq
        exact ⟨m, hext q m hm1, List.mem_append_left _ hm2, hm3⟩
      · simp at hm
        obtain ⟨rfl, rfl⟩ := hm
        refine ⟨newNode w, deref_alloc_new _ _, rfl, List.nodup_nil, ?_⟩
        intro q hq
        simp [newNode] at hq

theorem WF.connect {h : Heap T} {g : Graph T} (hwf : WF h g) (a b : T) :
    WF (connect h g a b).1 g := by
  by_cases hab : a ∈ g.keys ∧ b ∈ g.keys
  · obtain ⟨p, hp⟩ := find_isSome_of_mem_keys hab.1
    obtain ⟨q, hq⟩ := find_isSome_of_mem_keys hab.2
    obtain ⟨n1, hn1, hv1, _⟩ := hwf.node_of_find hp
    obtain ⟨n2, hn2, hv2, _⟩ := hwf.node_of_find hq
    obtain ⟨h2, hc, _, hspec⟩ := connectPtr_spec hn1 hn2
    rw [connect_of_find hp hq, hc]
    refine ⟨hwf.keys_nodup, ?_⟩
    intro v r hm
    obtain ⟨n, hn, hval, hnd, hadj⟩ := hwf.node v r hm
    obtain ⟨n', e1, e2, _, e4, _, e6⟩ := (hspec r).2 n hn
    refine ⟨n', e1, e2.trans hval, e4 hnd, ?_⟩
    intro x hx
    rcases (e6 x).1 hx with hx | ⟨rfl, rfl⟩ | ⟨rfl, rfl⟩
    · obtain ⟨m, hm1, hm2, hm3⟩ := hadj x hx
      obtain ⟨m', f1, f2, _, _, _, f6⟩ := (hspec x).2 m hm1
      exact ⟨m', f1, f2 ▸ hm2, (f6 r).2 (Or.inl hm3)⟩
    · obtain ⟨m', f1, f2, _, _, _, f6⟩ := (hspec x).2 n2 hn2
      refine ⟨m', f1, ?_, (f6 r).2 (Or.inr (Or.inr ⟨rfl, rfl⟩))⟩
      rw [f2, hv2]; exact find_some_mem hq
    · obtain ⟨m', f1, f2, _, _, _, f6⟩ := (hspec x).2 n1 hn1
      refine ⟨m', f1, ?_, (f6 r).2 (Or.inr (Or.inl ⟨rfl, rfl⟩))⟩
      rw [f2, hv1]; exact find_some_mem hp
  · rw [connect_of_not_mem (by tauto)]
    exact hwf

theorem cellReorder_deref {h h' : Heap T} (hc : ∀ p, CellReorder (deref h p) (deref h' p))
    {p : Nat} {n : Node T} (hn : deref h p = some n) :
    ∃ m, deref h' p = some m ∧ NodeReorder n m := by
  have := hc p
  rw [hn] at this
  cases hm : deref h' p with
  | none => rw [hm] at this; exact absurd this (by simp [CellReorder])
  | some m => rw [hm] at this; exact ⟨m, rfl, this⟩

theorem WF.reorder {h h' : Heap T} {g g' : Graph T} (hwf : WF h g)
    (hr : Reorder h g h' g') : WF h' g' := by
  obtain ⟨hperm, _, hcell⟩ := hr
  refine ⟨(hperm.map Prod.fst).nodup_iff.1 hwf.keys_nodup, ?_⟩
  intro v p hm
  obtain ⟨n, hn, hval, hnd, hadj⟩ := hwf.node v p (hperm.mem_iff.2 hm)
  obtain ⟨m, hm1, hv, _, hp⟩ := cellReorder_deref hcell hn
  refine ⟨m, hm1, hv ▸ hval, hp.nodup_iff.1 hnd, ?_⟩
  intro q hq
  obtain ⟨mq, f1, f2, f3⟩ := hadj q (hp.mem_iff.2 hq)
  obtain ⟨mq', e1, ev, _, ep⟩ := cellReorder_deref hcell f1
  exact ⟨mq', e1, hperm.mem_iff.1 (ev ▸ f2), ep.mem_iff.1 f3⟩

/-- The representation invariant is kept by `insert`, `connect` and reordering. -/
theorem Run.preserves_wf {h h' : Heap T} {g g' : Graph T} {ops : List (Op T)}
    (hrun : Run h g ops h' g') (hwf : WF h g) : WF h' g' := by
  induction hrun with
  | nil h g => exact hwf
  | reorder hr _ ih => exact ih (hwf.reorder hr)
  | insert v _ ih => exact ih (hwf.insert v)
  | connect a b _ ih => exact ih (hwf.connect a b)

/-- Every graph built by `insert` and `connect` satisfies the representation invariant. -/
theorem Built.wf {h : Heap T} {g : Graph T} (hb : Built h g) : WF h g := by
  obtain ⟨h0, ops, hrun⟩ := hb
  exact hrun.preserves_wf (WF.empty h0)

theorem run_runOps : ∀ (ops : List (Op T)) (h : Heap T) (g : Graph T),
    Run h g ops (runOps ops (h, g)).1 (runOps ops (h, g)).2 := by
  intro ops
  induction ops with
  | nil => intro h g; exact Run.nil h g
  | cons op rest ih =>
    intro h g
    cases op with
    | insert v => exact Run.insert v (ih _ _)
    | connect a b => exact Run.connect a b (ih _ _)

theorem built_runOps (ops : List (Op T)) :
    Built (runOps ops (([] : Heap T), { nodes := [] })).1
      (runOps ops (([] : Heap T), { nodes := [] })).2 :=
  ⟨[], ops, run_runOps ops [] { nodes := [] }⟩

theorem shortestPath_of_not_mem (h : Heap T) (g : Graph T) (start endV : T) (fuel : Nat)
    (hab : start ∉ g.keys ∨ endV ∉ g.keys) :
    shortestPath h g start endV fuel = some (h, .error .NonExistentNodeException) := by
  rcases hab with hn | hn
  · have := (find_eq_none_iff g start).2 hn
    simp only [shortestPath, this]
  · have := (find_eq_none_iff g endV).2 hn
    cases hfa : find g start <;> simp only [shortestPath, this, hfa]

theorem mem_keys_of_shortestPath_ok {h h' : Heap T} {g : Graph T} {start endV : T}
    {fuel : Nat} {path : List Nat}
    (hr : shortestPath h g start endV fuel = some (h', .ok path)) :
    start ∈ g.keys ∧ endV ∈ g.keys := by
  by_contra hcon
  rw [shortestPath_of_not_mem h g start endV fuel (by tauto)] at hr
  simp at hr

theorem vLoop_of_shortestPath_ok {h h' : Heap T} {g : Graph T} (hwf : WF h g)
    {start endV : T} {fuel : Nat} {path : List Nat}
    (hr : shortestPath h g start endV fuel = some (h', .ok path)) :
    vLoop (adjValues h g) endV fuel [[start]] = some (.ok (valuesOf h' path)) ∧
    (valuesOf h' path).length = path.length ∧ ∀ v, adjValues h' g v = adjValues h g v := by
  obtain ⟨hs, he⟩ := mem_keys_of_shortestPath_ok hr
  obtain ⟨s1, s2⟩ := shortestPath_sim hwf hs he fuel
  rw [hr] at s1
  exact ⟨s1.symm, s2 h' path hr⟩

/-- C1.  On a graph built from the empty graph by `insert` and `connect` (the containers
iterating in any order), for distinct `start` and `endV`: whenever `shortestPath` returns a
path, no walk of the graph from `start` to `endV` has fewer values, that is fewer edges,
than the returned path. -/
theorem shortestPath_returns_fewest_edges {h : Heap T} {g : Graph T} (hb : Built h g)
    {start endV : T} (hne : start ≠ endV) {fuel : Nat} {h' : Heap T} {path : List Nat}
    (hr : shortestPath h g start endV fuel = some (h', .ok path))
    {w : List T} (hw : IsWalkFromTo h g start endV w) :
    path.length ≤ w.length := by
  obtain ⟨hv, hlen, _⟩ := vLoop_of_shortestPath_ok hb.wf hr
  have := vLoop_min (adjValues h g) endV fuel [start] start rfl hne _ hv w hw.1.2 hw.2.1 hw.2.2
  rw [hlen] at this
  simp at this
  omega

/-- C5.  When `start` or `endV` is not stored in the graph, `shortestPath` throws
`NonExistentNodeException` and leaves the heap as it was: no marker has been reset, and no
iteration of the search loop is needed (the result does not depend on `fuel`). -/
theorem shortestPath_absent_throws_NonExistentNode (h : Heap T) (g : Graph T)
    (start endV : T) (fuel : Nat) (hab : start ∉ g.keys ∨ endV ∉ g.keys) :
    shortestPath h g start endV fuel = some (h, .error .NonExistentNodeException) :=
  shortestPath_of_not_mem h g start endV fuel hab

/-- C6.  On a graph built by `insert` and `connect`, whenever `shortestPath` returns a path,
every pointer of it is live, and its values form a non-empty sequence that starts with
`start`, ends with `endV`, and in which every value is adjacent in the graph to the one
before it; the adjacency of the graph is the same before and after the call. -/
theorem shortestPath_returns_walk {h : Heap T} {g : Graph T} (hb : Built h g)
    {start endV : T} {fuel : Nat} {h' : Heap T} {path : List Nat}
    (hr : shortestPath h g start endV fuel = some (h', .ok path)) :
    (valuesOf h' path).length = path.length ∧
    IsWalkFromTo h g start endV (valuesOf h' path) ∧
    IsWalkFromTo h' g start endV (valuesOf h' path) := by
  obtain ⟨hv, hlen, hadj⟩ := vLoop_of_shortestPath_ok hb.wf hr
  obtain ⟨w1, w2, w3⟩ := vLoop_walk (adjValues h g) start endV fuel [[start]]
    (by
      intro a ha
      simp at ha; subst ha
      exact ⟨rfl, List.chain'_singleton _⟩) _ hv
  have hne : valuesOf h' path ≠ [] := by
    intro hnil
    rw [hnil] at w1
    simp at w1
  refine ⟨hlen, ⟨⟨hne, w3⟩, w1, w2⟩, ⟨⟨hne, ?_⟩, w1, w2⟩⟩
  have : adjValues h' g = adjValues h g := funext hadj
  rw [this]
  exact w3

theorem outcomeValues_eq_none {r : Option (Heap T × Except Exn (List Nat))}
    (hr : outcomeValues r = none) : r = none := by
  cases r with
  | none => rfl
  | some x =>
    obtain ⟨h, e⟩ := x
    cases e <;> simp [outcomeValues] at hr

theorem outcomeValues_eq_error {r : Option (Heap T × Except Exn (List Nat))} {e : Exn}
    (hr : outcomeValues r = some (.error e)) : ∃ h', r = some (h', .error e) := by
  cases r with
  | none => simp [outcomeValues] at hr
  | some x =>
    obtain ⟨h, e'⟩ := x
    cases e' with
    | error e'' =>
      simp [outcomeValues] at hr
      exact ⟨h, by rw [hr]⟩
    | ok p => simp [outcomeValues] at hr

/-- When `start` has exactly one neighbour, that neighbour has no other neighbour than
`start`, and `endV` is neither of the two, the loop on values never ends. -/
theorem vLoop_back_and_forth (adj : T → List T) (x y endV : T) (hx : adj x = [y])
    (hy : adj y = [x]) (hex : endV ≠ x) (hey : endV ≠ y) :
    ∀ (fuel : Nat) (a : List T), (a.getLast? = some x ∨ a.getLast? = some y) →
      vLoop adj endV fuel [a] = none := by
  intro fuel
  induction fuel with
  | zero => intro a _; simp [vLoop]
  | succ fuel ih =>
    intro a ha
    rcases ha with ha | ha
    · rw [vLoop_next adj endV fuel a [] x ha (by rw [hx]; simpa using hey), hx]
      exact ih _ (Or.inr (by simp))
    · rw [vLoop_next adj endV fuel a [] y ha (by rw [hy]; simpa using hex), hy]
      exact ih _ (Or.inl (by simp))

/-- The loop on values never returns one of the paths it starts from: a returned path is
longer than the shortest stored one. -/
theorem vLoop_length (adj : T → List T) (endV : T) (n : Nat) :
    ∀ (fuel : Nat) (ts : List (List T)), (∀ a ∈ ts, n ≤ a.length) →
      ∀ b, vLoop adj endV fuel ts = some (.ok b) → n + 1 ≤ b.length := by
  intro fuel
  induction fuel with
  | zero => intro ts _ b hb; simp [vLoop] at hb
  | succ fuel ih =>
    intro ts hts b hb
    cases ts with
    | nil => simp [vLoop] at hb
    | cons a rest =>
      have ha := hts a (List.mem_cons_self _ _)
      cases hl : a.getLast? with
      | none => simp [vLoop, hl] at hb
      | some x =>
        by_cases he : endV ∈ adj x
        · rw [vLoop_found adj endV fuel a rest x hl he] at hb
          simp at hb; subst hb
          simp; exact ha
        · rw [vLoop_next adj endV fuel a rest x hl he] at hb
          refine ih _ ?_ b hb
          intro c hc
          rcases List.mem_append.1 hc with hc | hc
          · exact hts c (List.dropLast_subset _ hc)
          · rcases List.mem_map.1 hc with ⟨w, _, rfl⟩
            simp; omega

/-- On a built graph, `shortestPath(start, endV)` never ends when `start` has exactly one
neighbour, that neighbour has no other neighbour, and `endV` is a third stored value. -/
theorem shortestPath_diverges {h : Heap T} {g : Graph T} (hb : Built h g) {start y endV : T}
    (hs : start ∈ g.keys) (he : endV ∈ g.keys) (hx : adjValues h g start = [y])
    (hy : adjValues h g y = [start]) (hes : endV ≠ start) (hey : endV ≠ y) (fuel : Nat) :
    shortestPath h g start endV fuel = none := by
  apply outcomeValues_eq_none
  rw [(shortestPath_sim hb.wf hs he fuel).1]
  exact vLoop_back_and_forth _ start y endV hx hy hes hey fuel [start] (Or.inl rfl)

/-- On a built graph, `shortestPath(start, endV)` throws `NonExistentNodeException` in its
second iteration when `start` has no neighbour. -/
theorem shortestPath_isolated_start {h : Heap T} {g : Graph T} (hb : Built h g)
    {start endV : T} (hs : start ∈ g.keys) (he : endV ∈ g.keys)
    (hx : adjValues h g start = []) (fuel : Nat) :
    ∃ h', shortestPath h g start endV (fuel + 2) =
      some (h', .error .NonExistentNodeException) := by
  apply outcomeValues_eq_error
  rw [(shortestPath_sim hb.wf hs he (fuel + 2)).1,
    vLoop_next _ endV (fuel + 1) [start] [] start rfl (by rw [hx]; simp), hx]
  simp [vLoop]

/-- On a built graph, a path returned by `shortestPath` has at least two nodes; so
`shortestPath(X, X)` never returns the one-element path. -/
theorem shortestPath_length_ge_two {h : Heap T} {g : Graph T} (hb : Built h g)
    {start endV : T} {fuel : Nat} {h' : Heap T} {path : List Nat}
    (hr : shortestPath h g start endV fuel = some (h', .ok path)) :
    2 ≤ path.length := by
  obtain ⟨hv, hlen, _⟩ := vLoop_of_shortestPath_ok hb.wf hr
  have := vLoop_length (adjValues h g) endV 1 fuel [[start]] (by simp) _ hv
  omega

/-- C2 (fails on the code).  On the graph with the values 1, 2, 3 and the single edge 1-2,
`shortestPath(1, 3)` has neither returned nor thrown after any number of iterations of
its loop. -/
theorem shortestPath_edgeAndIsolated_never_ends :
    ∀ fuel : Nat, shortestPath exEdgeAndIsolated.1 exEdgeAndIsolated.2 1 3 fuel = none :=
  fun fuel => shortestPath_diverges (built_runOps _) (y := 2) (by decide) (by decide)
    (by decide) (by decide) (by decide) (by decide) fuel

/-- C3 (fails on the code).  On the graph holding only the unconnected values 1 and 2,
`shortestPath(1, 2)` throws `NonExistentNodeException`, not `NoPathException`, as soon as
its loop may run twice. -/
theorem shortestPath_twoIsolated_throws_NonExistentNode :
    ∀ fuel : Nat, shortestPath exTwoIsolated.1 exTwoIsolated.2 1 2 (fuel + 2) =
      some ([some ⟨[], 1, some false⟩, some ⟨[], 2, some false⟩, some ⟨[], 1, none⟩],
        .error .NonExistentNodeException) :=
  fun _ => rfl

/-- C4 (fails on the code).  On the graph holding the single value 1, `shortestPath(1, 1)`
throws `NonExistentNodeException` instead of returning the one-element path; on the graph
with the edge 1-2 and the isolated value 3 it returns a path with the values 1, 2, 1. -/
theorem shortestPath_same_value_not_singleton :
    (∀ fuel : Nat, shortestPath exSingle.1 exSingle.2 1 1 (fuel + 2) =
      some ([some ⟨[], 1, some false⟩, some ⟨[], 1, none⟩],
        .error .NonExistentNodeException)) ∧
    (∀ fuel : Nat, outcomeValues
      (shortestPath exEdgeAndIsolated.1 exEdgeAndIsolated.2 1 1 (fuel + 2)) =
        some (.ok [1, 2, 1])) :=
  ⟨fun _ => rfl, fun _ => rfl⟩

/-- The walk 1, 2, 3 of `exChain3`. -/
theorem exChain3_walk : IsWalkFromTo exChain3.1 exChain3.2 1 3 [1, 2, 3] :=
  ⟨⟨by decide, List.Chain'.cons (by decide)
    (List.Chain'.cons (by decide) (List.chain'_singleton _))⟩, by decide, by decide⟩

theorem exChain3_shortestPath :
    shortestPath exChain3.1 exChain3.2 1 3 2 =
      some ([some ⟨[1], 1, some false⟩, some ⟨[0, 2], 2, some false⟩,
        some ⟨[1], 3, some false⟩, some ⟨[], 1, none⟩, some ⟨[], 2, none⟩,
        some ⟨[], 1, none⟩, some ⟨[], 3, none⟩], .ok [3, 4, 6]) := by
  decide

/-- Witness of C1: on `exChain3` the call `shortestPath(1, 3)` returns a path of three
nodes, and the walk 1, 2, 3 is not shorter. -/
theorem shortestPath_returns_fewest_edges_witness :
    [3, 4, 6].length ≤ [1, 2, 3].length :=
  shortestPath_returns_fewest_edges (built_runOps _) (by decide) exChain3_shortestPath
    exChain3_walk

/-- Witness of C5: 7 is not stored in `exChain3`. -/
theorem shortestPath_absent_throws_NonExistentNode_witness :
    shortestPath exChain3.1 exChain3.2 1 7 0 =
      some (exChain3.1, .error .NonExistentNodeException) :=
  shortestPath_absent_throws_NonExistentNode exChain3.1 exChain3.2 1 7 0
    (Or.inr (by decide))

/-- Witness of C6: the path returned on `exChain3` holds the values 1, 2, 3. -/
theorem shortestPath_returns_walk_witness :
    IsWalkFromTo exChain3.1 exChain3.2 1 3 [1, 2, 3] :=
  (shortestPath_returns_walk (built_runOps _) exChain3_shortestPath).2.1

theorem keys_insert (h : Heap T) (g : Graph T) (v w : T) :
    w ∈ (insert h g v).2.1.keys ↔ w ∈ g.keys ∨ w = v := by
  by_cases hv : v ∈ g.keys
  · rw [insert_of_mem hv]
    constructor
    · exact Or.inl
    · rintro (hw | hw)
      · exact hw
      · exact hw ▸ hv
  · rw [insert_of_not_mem hv]
    simp [Graph.keys]

theorem adjValues_of_not_mem {h : Heap T} {g : Graph T} {v : T} (hv : v ∉ g.keys) :
    adjValues h g v = [] := by
  simp [adjValues, (find_eq_none_iff g v).2 hv]

theorem findEntry_append_of_mem {l : List (T × Nat)} {x : T} (l' : List (T × Nat))
    (hx : x ∈ l.map Prod.fst) : findEntry (l ++ l') x = findEntry l x := by
  induction l with
  | nil => simp at hx
  | cons e rest ih =>
    obtain ⟨k, p⟩ := e
    by_cases hk : k = x
    · simp [findEntry, hk]
    · have : x ∈ rest.map Prod.fst := by
        rcases List.mem_cons.1 hx with h | h
        · exact absurd h.symm hk
        · exact h
      simp [findEntry, hk, ih this]

/-- The method `insert` leaves the adjacency of every value as it was. -/
theorem adjValues_insert {h : Heap T} {g : Graph T} (hwf : WF h g) (v x : T) :
    adjValues (insert h g v).1 (insert h g v).2.1 x = adjValues h g x := by
  by_cases hv : v ∈ g.keys
  · rw [insert_of_mem hv]
  · rw [insert_of_not_mem hv]
    by_cases hx : x ∈ g.keys
    · obtain ⟨p, hp⟩ := find_isSome_of_mem_keys hx
      obtain ⟨n, hn, _, hadj⟩ := hwf.node_of_find hp
      have hext : Ext h (h ++ [some (newNode v)]) := Ext.append _ _
      have hp' : find ({ nodes := g.nodes ++ [(v, h.length)] } : Graph T) x = some p := by
        unfold find at hp ⊢
        rw [findEntry_append_of_mem _ hx]; exact hp
      rw [adjValues_of_find hp hn, adjValues_of_find hp' (hext p n hn), valuesOf_ext hadj hext]
    · rw [adjValues_of_not_mem hx]
      by_cases hxv : x = v
      · subst hxv
        have hp' : find ({ nodes := g.nodes ++ [(x, h.length)] } : Graph T) x =
            some h.length := by
          apply findEntry_of_mem
          · have := (hwf.insert x).keys_nodup
            rw [insert_of_not_mem hv] at this
            exact this
          · simp
        rw [adjValues_of_find hp' (deref_alloc_new _ _)]
        rfl
      · apply adjValues_of_not_mem
        simp only [Graph.keys, List.map_append, List.map_cons, List.map_nil,
          List.mem_append, List.mem_singleton, not_or]
        exact ⟨hx, hxv⟩

theorem WF.value_unique {h : Heap T} {g : Graph T} (hwf : WF h g) {x y : T} {p : Nat}
    (hx : (x, p) ∈ g.nodes) (hy : (y, p) ∈ g.nodes) : x = y := by
  obtain ⟨n, hn, hv, _⟩ := hwf.node x p hx
  obtain ⟨m, hm, hw, _⟩ := hwf.node y p hy
  rw [hn] at hm
  have := Option.some.inj hm
  subst this
  exact hv.symm.trans hw

/-- After a successful `connect(a, b)` the values adjacent to `x` are those adjacent before,
and `b` when `x` is `a`, and `a` when `x` is `b`. -/
theorem mem_adjValues_connect {h : Heap T} {g : Graph T} (hwf : WF h g) {a b : T}
    (ha : a ∈ g.keys) (hb : b ∈ g.keys) (x y : T) :
    y ∈ adjValues (connect h g a b).1 g x ↔
      y ∈ adjValues h g x ∨ (x = a ∧ y = b) ∨ (x = b ∧ y = a) := by
  obtain ⟨p, hp⟩ := find_isSome_of_mem_keys ha
  obtain ⟨q, hq⟩ := find_isSome_of_mem_keys hb
  obtain ⟨n1, hn1, hv1, _⟩ := hwf.node_of_find hp
  obtain ⟨n2, hn2, hv2, _⟩ := hwf.node_of_find hq
  obtain ⟨h2, hc, _, hspec⟩ := connectPtr_spec hn1 hn2
  rw [connect_of_find hp hq, hc]
  by_cases hx : x ∈ g.keys
  · obtain ⟨r, hr⟩ := find_isSome_of_mem_keys hx
    obtain ⟨n, hn, _, hadj⟩ := hwf.node_of_find hr
    obtain ⟨n', e1, _, _, _, _, e6⟩ := (hspec r).2 n hn
    rw [adjValues_of_find hr hn, adjValues_of_find hr e1, mem_valuesOf, mem_valuesOf]
    constructor
    · rintro ⟨z, hz, m', hm', hy⟩
      rcases (e6 z).1 hz with hz | ⟨rfl, rfl⟩ | ⟨rfl, rfl⟩
      · obtain ⟨m, hm, _⟩ := hadj z hz
        obtain ⟨m'', f1, f2, _⟩ := (hspec z).2 m hm
        rw [hm'] at f1
        have := Option.some.inj f1
        subst this
        exact Or.inl ⟨z, hz, m, hm, f2 ▸ hy⟩
      · obtain ⟨m'', f1, f2, _⟩ := (hspec z).2 n2 hn2
        rw [hm'] at f1
        have := Option.some.inj f1
        subst this
        right; left
        exact ⟨hwf.value_unique (find_some_mem hr) (find_some_mem hp),
          by rw [← hy, f2, hv2]⟩
      · obtain ⟨m'', f1, f2, _⟩ := (hspec z).2 n1 hn1
        rw [hm'] at f1
        have := Option.some.inj f1
        subst this
        right; right
        exact ⟨hwf.value_unique (find_some_mem hr) (find_some_mem hq),
          by rw [← hy, f2, hv1]⟩
    · rintro (⟨z, hz, m, hm, hy⟩ | ⟨rfl, rfl⟩ | ⟨rfl, rfl⟩)
      · obtain ⟨m', f1, f2, _⟩ := (hspec z).2 m hm
        exact ⟨z, (e6 z).2 (Or.inl hz), m', f1, f2.trans hy⟩
      · have hrp : r = p := by rw [hp] at hr; exact (Option.some.inj hr).symm
        obtain ⟨m', f1, f2, _⟩ := (hspec q).2 n2 hn2
        exact ⟨q, (e6 q).2 (Or.inr (Or.inl ⟨hrp, rfl⟩)), m', f1, f2.trans hv2⟩
      · have hrq : r = q := by rw [hq] at hr; exact (Option.some.inj hr).symm
        obtain ⟨m', f1, f2, _⟩ := (hspec p).2 n1 hn1
        exact ⟨p, (e6 p).2 (Or.inr (Or.inr ⟨hrq, rfl⟩)), m', f1, f2.trans hv1⟩
  · rw [adjValues_of_not_mem hx, adjValues_of_not_mem hx]
    have h1 : ¬ x = a := fun e => hx (e ▸ ha)
    have h2 : ¬ x = b := fun e => hx (e ▸ hb)
    simp [h1, h2]

theorem cellReorder_deref_rev {h h' : Heap T}
    (hc : ∀ p, CellReorder (deref h p) (deref h' p))
    {p : Nat} {m : Node T} (hm : deref h' p = some m) :
    ∃ n, deref h p = some n ∧ NodeReorder n m := by
  have := hc p
  rw [hm] at this
  cases hn : deref h p with
  | none => rw [hn] at this; exact absurd this (by simp [CellReorder])
  | some n => rw [hn] at this; exact ⟨n, rfl, this⟩

/-- Reordering the containers leaves the stored values and the adjacency of every value, as
sets, as they were. -/
theorem mem_adjValues_reorder {h h' : Heap T} {g g' : Graph T} (hwf : WF h g)
    (hr : Reorder h g h' g') (x y : T) :
    (x ∈ g'.keys ↔ x ∈ g.keys) ∧ (y ∈ adjValues h' g' x ↔ y ∈ adjValues h g x) := by
  have hwf' : WF h' g' := hwf.reorder hr
  obtain ⟨hperm, _, hcell⟩ := hr
  have hkeys : x ∈ g'.keys ↔ x ∈ g.keys := (hperm.map Prod.fst).mem_iff.symm
  refine ⟨hkeys, ?_⟩
  by_cases hx : x ∈ g.keys
  · obtain ⟨p, hp⟩ := find_isSome_of_mem_keys hx
    have hp' : find g' x = some p := hwf'.find_of_mem (hperm.mem_iff.1 (find_some_mem hp))
    obtain ⟨n, hn, _, _⟩ := hwf.node_of_find hp
    obtain ⟨m, hm, _, _, hpm⟩ := cellReorder_deref hcell hn
    rw [adjValues_of_find hp hn, adjValues_of_find hp' hm, mem_valuesOf, mem_valuesOf]
    constructor
    · rintro ⟨z, hz, mz, hmz, hy⟩
      obtain ⟨nz, hnz, hv, _⟩ := cellReorder_deref_rev hcell hmz
      exact ⟨z, hpm.mem_iff.2 hz, nz, hnz, hv.trans hy⟩
    · rintro ⟨z, hz, nz, hnz, hy⟩
      obtain ⟨mz, hmz, hv, _⟩ := cellReorder_deref hcell hnz
      exact ⟨z, hpm.mem_iff.1 hz, mz, hmz, hv.symm.trans hy⟩
  · rw [adjValues_of_not_mem hx, adjValues_of_not_mem (fun h => hx (hkeys.1 h))]

theorem abstracts_insert {h : Heap T} {g : Graph T} {s : List T × List (T × T)}
    (hwf : WF h g) (ha : Abstracts h g s) (v : T) :
    Abstracts (insert h g v).1 (insert h g v).2.1 (absOp s (.insert v)) := by
  refine ⟨?_, ?_⟩
  · intro w
    rw [keys_insert, ha.1 w]
    simp only [absOp]
    split
    · next hv =>
      constructor
      · rintro (hw | hw)
        · exact hw
        · exact hw ▸ hv
      · exact Or.inl
    · simp
  · intro x y
    rw [adjValues_insert hwf]
    exact ha.2 x y

theorem abstracts_connect {h : Heap T} {g : Graph T} {s : List T × List (T × T)}
    (hwf : WF h g) (ha : Abstracts h g s) (a b : T) :
    Abstracts (connect h g a b).1 g (absOp s (.connect a b)) := by
  by_cases hab : a ∈ g.keys ∧ b ∈ g.keys
  · have hab' : a ∈ s.1 ∧ b ∈ s.1 := ⟨(ha.1 a).1 hab.1, (ha.1 b).1 hab.2⟩
    refine ⟨?_, ?_⟩
    · intro w
      simp only [absOp, hab', and_self, if_true]
      exact ha.1 w
    · intro x y
      rw [mem_adjValues_connect hwf hab.1 hab.2, ha.2 x y]
      simp only [absOp, hab', and_self, if_true, List.mem_append, List.mem_cons,
        Prod.mk.injEq, List.mem_nil_iff, or_false, List.mem_singleton]
  · have hab' : ¬ (a ∈ s.1 ∧ b ∈ s.1) := fun hc => hab ⟨(ha.1 a).2 hc.1, (ha.1 b).2 hc.2⟩
    rw [connect_of_not_mem (by tauto)]
    simp only [absOp, hab', if_false]
    exact ha

theorem abstracts_reorder {h h' : Heap T} {g g' : Graph T} {s : List T × List (T × T)}
    (hwf : WF h g) (ha : Abstracts h g s) (hr : Reorder h g h' g') : Abstracts h' g' s :=
  ⟨fun v => ((mem_adjValues_reorder hwf hr v v).1).trans (ha.1 v),
   fun x y => ((mem_adjValues_reorder hwf hr x y).2).trans (ha.2 x y)⟩

/-- What a run of operations leaves, as sets: the stored values and the adjacency are those
computed by `absRun`, whatever reorderings happened on the way. -/
theorem Run.abstracts {h h' : Heap T} {g g' : Graph T} {ops : List (Op T)}
    (hrun : Run h g ops h' g') :
    ∀ {s : List T × List (T × T)}, WF h g → Abstracts h g s →
      Abstracts h' g' (absRun ops s) := by
  induction hrun with
  | nil h g => intro s _ ha; exact ha
  | reorder hr _ ih => intro s hwf ha; exact ih (hwf.reorder hr) (abstracts_reorder hwf ha hr)
  | insert v _ ih =>
    intro s hwf ha
    exact ih (hwf.insert v) (abstracts_insert hwf ha v)
  | connect a b _ ih =>
    intro s hwf ha
    exact ih (hwf.connect a b) (abstracts_connect hwf ha a b)

theorem abstracts_empty (h : Heap T) : Abstracts h ({ nodes := [] } : Graph T) ([], []) :=
  ⟨fun v => by simp [Graph.keys], fun x y => by simp [adjValues, find, findEntry]⟩

theorem outcomeValues_eq_ok {r : Option (Heap T × Except Exn (List Nat))} {b : List T}
    (hr : outcomeValues r = some (.ok b)) :
    ∃ h' path, r = some (h', .ok path) ∧ valuesOf h' path = b := by
  cases r with
  | none => simp [outcomeValues] at hr
  | some x =>
    obtain ⟨h, e⟩ := x
    cases e with
    | error e' => simp [outcomeValues] at hr
    | ok p =>
      simp [outcomeValues] at hr
      exact ⟨h, p, rfl, hr⟩

/-- When `endV` is not adjacent to `start` but is adjacent to every neighbour of `start`,
and `start` has a neighbour, the loop on values returns, in its second iteration, `start`,
the first neighbour of `start`, `endV`. -/
theorem vLoop_second_iteration (adj : T → List T) (start endV : T) (fuel : Nat)
    (h0 : endV ∉ adj start) (h1 : adj start ≠ []) (h2 : ∀ y ∈ adj start, endV ∈ adj y) :
    ∃ y ∈ adj start, vLoop adj endV (fuel + 2) [[start]] = some (.ok [start, y, endV]) := by
  rw [vLoop_next adj endV (fuel + 1) [start] [] start rfl h0]
  cases hadj : adj start with
  | nil => exact absurd hadj h1
  | cons y more =>
    refine ⟨y, List.mem_cons_self _ _, ?_⟩
    simp only [List.dropLast_single, List.nil_append, List.map_cons]
    rw [vLoop_found adj endV fuel ([start] ++ [y]) _ y (by simp)
      (h2 y (by rw [hadj]; exact List.mem_cons_self _ _))]
    rfl

/-- C7.  On every graph obtained by inserting four distinct values `a`, `b`, `c`, `d` and
connecting `a`-`b`, `b`-`c`, `c`-`d`, `a`-`d`, the containers iterating in any order,
`shortestPath(a, c)` returns in its second iteration a path of exactly three nodes, whose
values are `a, b, c` or `a, d, c`. -/
theorem shortestPath_four_cycle {a b c d : T} (hab : a ≠ b) (hac : a ≠ c) (had : a ≠ d)
    (hbc : b ≠ c) (hbd : b ≠ d) (hcd : c ≠ d) (h0 : Heap T) {h : Heap T} {g : Graph T}
    (hrun : Run h0 { nodes := [] }
      [.insert a, .insert b, .insert c, .insert d,
       .connect a b, .connect b c, .connect c d, .connect a d] h g)
    (fuel : Nat) :
    ∃ h' path, shortestPath h g a c (fuel + 2) = some (h', .ok path) ∧ path.length = 3 ∧
      (valuesOf h' path = [a, b, c] ∨ valuesOf h' path = [a, d, c]) := by
  have hwf : WF h g := hrun.preserves_wf (WF.empty h0)
  have habs := hrun.abstracts (WF.empty h0) (abstracts_empty h0)
  have hba : b ≠ a := fun e => hab e.symm
  have hca : c ≠ a := fun e => hac e.symm
  have hda : d ≠ a := fun e => had e.symm
  have hcb : c ≠ b := fun e => hbc e.symm
  have hdb : d ≠ b := fun e => hbd e.symm
  have hdc : d ≠ c := fun e => hcd e.symm
  simp [absRun, absOp, hab, hac, had, hbc, hbd, hcd, hba, hca, hda, hcb, hdb, hdc]
    at habs
  obtain ⟨hkeys, hadj⟩ := habs
  have hka : a ∈ g.keys := (hkeys a).2 (by simp)
  have hkc : c ∈ g.keys := (hkeys c).2 (by simp)
  obtain ⟨s1, s2⟩ := shortestPath_sim hwf hka hkc (fuel + 2)
  obtain ⟨y, hy, hv⟩ := vLoop_second_iteration (adjValues h g) a c fuel
    (by rw [hadj]; simp [hac, hab, hbc, hcd, hca, hcb, hdc, had])
    (by
      have : b ∈ adjValues h g a := (hadj a b).2 (by simp)
      intro hnil; rw [hnil] at this; simp at this)
    (by
      intro y hy
      rw [hadj] at hy ⊢
      simp [hab, hac, had, hba, hca, hda] at hy
      rcases hy with rfl | rfl
      · simp
      · simp)
  rw [hv] at s1
  obtain ⟨h', path, hp, hval⟩ := outcomeValues_eq_ok s1
  refine ⟨h', path, hp, ?_, ?_⟩
  · rw [← (s2 h' path hp).1, hval]; rfl
  · rw [hval]
    rw [hadj] at hy
    simp [hab, hac, had, hba, hca, hda] at hy
    rcases hy with rfl | rfl
    · exact Or.inl rfl
    · exact Or.inr rfl

/-- Witness of C7: the 4-cycle on 1, 2, 3, 4 built without any reordering. -/
theorem shortestPath_four_cycle_witness :
    ∃ h' path, shortestPath exCycle4.1 exCycle4.2 1 3 2 = some (h', .ok path) ∧
      path.length = 3 ∧ (valuesOf h' path = [1, 2, 3] ∨ valuesOf h' path = [1, 4, 3]) :=
  shortestPath_four_cycle (by decide) (by decide) (by decide) (by decide) (by decide)
    (by decide) [] (run_runOps _ [] { nodes := [] }) 0

theorem connectPtr_ne_nonExistent (h : Heap T) (p q : Nat) :
    (connectPtr h p q).2 ≠ .error .NonExistentNodeException := by
  unfold connectPtr
  split
  · simp
  · simp only
    split <;> simp

/-- C9.  The call `connect(a, b)` by value throws `NonExistentNodeException` exactly when
`a` or `b` is not stored in the graph, and when it throws it, the heap is the one before the
call: no node, adjacency set or marker was touched (the map `nodes` is never written by
`connect`). -/
theorem connect_throws_iff_absent (h : Heap T) (g : Graph T) (a b : T) :
    ((connect h g a b).2 = .error .NonExistentNodeException ↔ (a ∉ g.keys ∨ b ∉ g.keys)) ∧
    ((connect h g a b).2 = .error .NonExistentNodeException → (connect h g a b).1 = h) := by
  by_cases hab : a ∈ g.keys ∧ b ∈ g.keys
  · obtain ⟨p, hp⟩ := find_isSome_of_mem_keys hab.1
    obtain ⟨q, hq⟩ := find_isSome_of_mem_keys hab.2
    rw [connect_of_find hp hq]
    have := connectPtr_ne_nonExistent h p q
    refine ⟨⟨fun hc => absurd hc this, fun hc => ?_⟩, fun hc => absurd hc this⟩
    rcases hc with hc | hc
    · exact absurd hab.1 hc
    · exact absurd hab.2 hc
  · have hab' : a ∉ g.keys ∨ b ∉ g.keys := by tauto
    rw [connect_of_not_mem hab']
    exact ⟨⟨fun _ => hab', fun _ => rfl⟩, fun _ => rfl⟩

/-- Witness of C9: 7 is not stored in `exChain3`, so `connect(1, 7)` throws and changes
nothing. -/
theorem connect_throws_iff_absent_witness :
    (connect exChain3.1 exChain3.2 1 7).2 = .error .NonExistentNodeException ∧
    (connect exChain3.1 exChain3.2 1 7).1 = exChain3.1 :=
  have hthrow := ((connect_throws_iff_absent exChain3.1 exChain3.2 1 7).1).2
    (Or.inr (by decide))
  ⟨hthrow, (connect_throws_iff_absent exChain3.1 exChain3.2 1 7).2 hthrow⟩

/-- C10.  When `v` is already stored, `insert(v)` returns `NULL` and leaves the heap and the
map `nodes` exactly as they were, so every node and adjacency set is unchanged; the graph,
whose map holds no value twice, still holds `v` exactly once. -/
theorem insert_present_reports_duplicate (h : Heap T) (g : Graph T) (v : T)
    (hnd : g.keys.Nodup) (hv : v ∈ g.keys) :
    insert h g v = (h, g, none) ∧ (insert h g v).2.1.keys.count v = 1 := by
  rw [insert_of_mem hv]
  exact ⟨rfl, List.count_eq_one_of_mem hnd hv⟩

/-- Witness of C10: inserting 2 into `exChain3` a second time. -/
theorem insert_present_reports_duplicate_witness :
    insert exChain3.1 exChain3.2 2 = (exChain3.1, exChain3.2, none) ∧
    (insert exChain3.1 exChain3.2 2).2.1.keys.count 2 = 1 :=
  insert_present_reports_duplicate exChain3.1 exChain3.2 2 (by decide) (by decide)

theorem mem_keys_of_mem_adjValues {h : Heap T} {g : Graph T} (hwf : WF h g) {x y : T}
    (hy : y ∈ adjValues h g x) : x ∈ g.keys ∧ y ∈ g.keys := by
  by_cases hx : x ∈ g.keys
  · refine ⟨hx, ?_⟩
    obtain ⟨p, hp⟩ := find_isSome_of_mem_keys hx
    obtain ⟨n, hn, _, hadj⟩ := hwf.node_of_find hp
    rw [adjValues_of_find hp hn, mem_valuesOf] at hy
    obtain ⟨q, hq, m, hm, rfl⟩ := hy
    obtain ⟨m', hm', hk⟩ := hadj q hq
    rw [hm] at hm'
    exact (Option.some.inj hm') ▸ hk
  · rw [adjValues_of_not_mem hx] at hy
    simp at hy

/-- Adjacency is symmetric in a well-formed graph. -/
theorem adjValues_symm {h : Heap T} {g : Graph T} (hwf : WF h g) {x y : T}
    (hy : y ∈ adjValues h g x) : x ∈ adjValues h g y := by
  obtain ⟨hx, _⟩ := mem_keys_of_mem_adjValues hwf hy
  obtain ⟨p, hp⟩ := find_isSome_of_mem_keys hx
  obtain ⟨n, hn, hv, hnd, hadj⟩ := hwf.node x p (find_some_mem hp)
  rw [adjValues_of_find hp hn, mem_valuesOf] at hy
  obtain ⟨q, hq, m, hm, rfl⟩ := hy
  obtain ⟨m', hm', hmem, hpm⟩ := hadj q hq
  rw [hm] at hm'
  have := Option.some.inj hm'
  subst this
  rw [adjValues_of_find (hwf.find_of_mem hmem) hm, mem_valuesOf]
  exact ⟨p, hpm, n, hn, hv⟩

theorem valuesOf_congr {h h1 : Heap T} {a : List Nat}
    (hag : ∀ q ∈ a, deref h1 q = deref h q) : valuesOf h1 a = valuesOf h a := by
  induction a with
  | nil => rfl
  | cons q a ih =>
    have hq := hag q (List.mem_cons_self _ _)
    have ih' := ih (fun r hr => hag r (List.mem_cons_of_mem _ hr))
    unfold valuesOf at ih' ⊢
    simp only [List.filterMap_cons, hq, ih']

/-- A heap that agrees with `h` on the nodes of a well-formed graph holds the same graph. -/
theorem WF.agree {h h1 : Heap T} {g : Graph T} (hwf : WF h g)
    (hag : ∀ e ∈ g.nodes, deref h1 e.2 = deref h e.2) :
    WF h1 g ∧ ∀ v, adjValues h1 g v = adjValues h g v := by
  have hadjag : ∀ v p n, (v, p) ∈ g.nodes → deref h p = some n →
      ∀ q ∈ n.adjacents, deref h1 q = deref h q := by
    intro v p n hm hn q hq
    obtain ⟨n', hn', _, _, hadj⟩ := hwf.node v p hm
    rw [hn] at hn'
    have := Option.some.inj hn'
    subst this
    obtain ⟨m, _, hmem, _⟩ := hadj q hq
    exact hag _ hmem
  refine ⟨⟨hwf.keys_nodup, ?_⟩, ?_⟩
  · intro v p hm
    obtain ⟨n, hn, hv, hnd, hadj⟩ := hwf.node v p hm
    refine ⟨n, (hag _ hm).trans hn, hv, hnd, ?_⟩
    intro q hq
    obtain ⟨m, hm1, hm2, hm3⟩ := hadj q hq
    exact ⟨m, (hag _ hm2).trans hm1, hm2, hm3⟩
  · intro v
    cases hf : find g v with
    | none => simp [adjValues, hf]
    | some p =>
      obtain ⟨n, hn, _⟩ := hwf.node v p (find_some_mem hf)
      rw [adjValues_of_find hf hn, adjValues_of_find hf ((hag _ (find_some_mem hf)).trans hn)]
      exact valuesOf_congr (hadjag v p n (find_some_mem hf) hn)

theorem sameBelow_rfl (B : Nat) (h : Heap T) : SameBelow B h h := fun _ _ => rfl

theorem sameBelow_trans {B : Nat} {h1 h2 h3 : Heap T} (h12 : SameBelow B h1 h2)
    (h23 : SameBelow B h2 h3) : SameBelow B h1 h3 :=
  fun p hp => (h23 p hp).trans (h12 p hp)

theorem length_insert_ge (h : Heap T) (g : Graph T) (v : T) :
    h.length ≤ (insert h g v).1.length := by
  by_cases hv : v ∈ g.keys
  · rw [insert_of_mem hv]
  · rw [insert_of_not_mem hv]; simp

theorem sameBelow_insert {B : Nat} (h : Heap T) (g : Graph T) (v : T) (hB : B ≤ h.length) :
    SameBelow B h (insert h g v).1 := by
  by_cases hv : v ∈ g.keys
  · rw [insert_of_mem hv]; exact sameBelow_rfl B h
  · rw [insert_of_not_mem hv]
    intro p hp
    exact deref_append_of_lt h _ (by omega)

theorem above_insert {B : Nat} {h : Heap T} {g : Graph T} (v : T) (hB : B ≤ h.length)
    (ha : Above B g) : Above B (insert h g v).2.1 := by
  by_cases hv : v ∈ g.keys
  · rw [insert_of_mem hv]; exact ha
  · rw [insert_of_not_mem hv]
    intro e he
    rcases List.mem_append.1 he with he | he
    · exact ha e he
    · simp at he; subst he; exact hB

/-- The first loop of `copyOther`: the graph stays well formed, gains the values of the
entries, gains no adjacency, and nothing below `B` is touched. -/
theorem copyInserts_spec (B : Nat) :
    ∀ (l : List (T × Nat)) (h : Heap T) (g : Graph T), WF h g → B ≤ h.length → Above B g →
      WF (copyInserts l h g).1 (copyInserts l h g).2 ∧
      B ≤ (copyInserts l h g).1.length ∧ Above B (copyInserts l h g).2 ∧
      SameBelow B h (copyInserts l h g).1 ∧
      (∀ v, v ∈ (copyInserts l h g).2.keys ↔ v ∈ g.keys ∨ v ∈ l.map Prod.fst) ∧
      ∀ x, adjValues (copyInserts l h g).1 (copyInserts l h g).2 x = adjValues h g x := by
  intro l
  induction l with
  | nil =>
    intro h g hwf hB ha
    exact ⟨hwf, hB, ha, sameBelow_rfl B h, fun v => by simp [copyInserts],
      fun x => rfl⟩
  | cons e rest ih =>
    intro h g hwf hB ha
    obtain ⟨v, p⟩ := e
    obtain ⟨i1, i2, i3, i4, i5, i6⟩ := ih (insert h g v).1 (insert h g v).2.1 (hwf.insert v)
      (le_trans hB (length_insert_ge h g v)) (above_insert v hB ha)
    refine ⟨i1, i2, i3, sameBelow_trans (sameBelow_insert h g v hB) i4, ?_, ?_⟩
    · intro w
      simp only [copyInserts]
      rw [i5 w, keys_insert]
      simp only [List.map_cons, List.mem_cons]
      tauto
    · intro x
      simp only [copyInserts]
      rw [i6 x, adjValues_insert hwf]

theorem connect_ok {h : Heap T} {g : Graph T} (hwf : WF h g) {a b : T}
    (ha : a ∈ g.keys) (hb : b ∈ g.keys) : (connect h g a b).2 = .ok () := by
  obtain ⟨p, hp⟩ := find_isSome_of_mem_keys ha
  obtain ⟨q, hq⟩ := find_isSome_of_mem_keys hb
  obtain ⟨n1, hn1, _⟩ := hwf.node_of_find hp
  obtain ⟨n2, hn2, _⟩ := hwf.node_of_find hq
  obtain ⟨h2, hc, _⟩ := connectPtr_spec hn1 hn2
  rw [connect_of_find hp hq, hc]

/-- The method `connect` touches no address below the nodes of the graph. -/
theorem sameBelow_connect {B : Nat} {h : Heap T} {g : Graph T} (hwf : WF h g)
    (ha : Above B g) (a b : T) : SameBelow B h (connect h g a b).1 := by
  by_cases hab : a ∈ g.keys ∧ b ∈ g.keys
  · obtain ⟨p, hp⟩ := find_isSome_of_mem_keys hab.1
    obtain ⟨q, hq⟩ := find_isSome_of_mem_keys hab.2
    obtain ⟨n1, hn1, _⟩ := hwf.node_of_find hp
    obtain ⟨n2, hn2, _⟩ := hwf.node_of_find hq
    obtain ⟨h2, hc, _, hspec⟩ := connectPtr_spec hn1 hn2
    rw [connect_of_find hp hq, hc]
    intro r hr
    have hp' := ha _ (find_some_mem hp)
    have hq' := ha _ (find_some_mem hq)
    simp only at hp' hq'
    cases hd : deref h r with
    | none => exact (hspec r).1 hd
    | some n =>
      obtain ⟨n', e1, _, _, _, e5, _⟩ := (hspec r).2 n hd
      rw [e1, e5 (by omega) (by omega)]
  · rw [connect_of_not_mem (by tauto)]
    exact sameBelow_rfl B h

theorem adjValues_connect_mono {h : Heap T} {g : Graph T} (hwf : WF h g) (a b : T) {x y : T}
    (hy : y ∈ adjValues h g x) : y ∈ adjValues (connect h g a b).1 g x := by
  by_cases hab : a ∈ g.keys ∧ b ∈ g.keys
  · exact (mem_adjValues_connect hwf hab.1 hab.2 x y).2 (Or.inl hy)
  · rw [connect_of_not_mem (by tauto)]
    exact hy

theorem copyInv_connect {E : T → T → Prop} (hsymm : ∀ x y, E x y → E y x) {B : Nat}
    {h0 hcur : Heap T} {g1 : Graph T} (hinv : CopyInv E B h0 g1 hcur) {v w : T}
    (hv : v ∈ g1.keys) (hw : w ∈ g1.keys) (hE : E v w) :
    CopyInv E B h0 g1 (connect hcur g1 v w).1 := by
  obtain ⟨hwf, hab, hsb, hsound⟩ := hinv
  refine ⟨hwf.connect v w, hab, sameBelow_trans hsb (sameBelow_connect hwf hab v w), ?_⟩
  intro x y hy
  rcases (mem_adjValues_connect hwf hv hw x y).1 hy with hy | ⟨rfl, rfl⟩ | ⟨rfl, rfl⟩
  · exact hsound x y hy
  · exact hE
  · exact hsymm _ _ hE

/-- The inner loop of `copyOther` for the value `v`: it ends normally, keeps the invariant,
removes no adjacency, and makes the value of every pointer of `qs` adjacent to `v`. -/
theorem copyEdgesOf_spec {E : T → T → Prop} (hsymm : ∀ x y, E x y → E y x) {B : Nat}
    {h0 : Heap T} {g1 : Graph T} {v : T} (hv : v ∈ g1.keys) :
    ∀ (qs : List Nat) (hcur : Heap T), CopyInv E B h0 g1 hcur →
      (∀ q ∈ qs, q < B ∧ ∃ nq, deref h0 q = some nq ∧ nq.value ∈ g1.keys ∧ E v nq.value) →
      ∃ h', copyEdgesOf g1 v qs hcur = (h', .ok ()) ∧ CopyInv E B h0 g1 h' ∧
        (∀ x y, y ∈ adjValues hcur g1 x → y ∈ adjValues h' g1 x) ∧
        ∀ q ∈ qs, ∀ nq, deref h0 q = some nq → nq.value ∈ adjValues h' g1 v := by
  intro qs
  induction qs with
  | nil =>
    intro hcur hinv _
    exact ⟨hcur, rfl, hinv, fun _ _ hy => hy, fun q hq => by simp at hq⟩
  | cons q rest ih =>
    intro hcur hinv hqs
    obtain ⟨hqB, nq, hnq, hkey, hE⟩ := hqs q (List.mem_cons_self _ _)
    have hnq' : deref hcur q = some nq := (hinv.2.2.1 q hqB).trans hnq
    have hok := connect_ok hinv.1 hv hkey
    have hinv2 := copyInv_connect hsymm hinv hv hkey hE
    obtain ⟨h', e1, e2, e3, e4⟩ := ih (connect hcur g1 v nq.value).1 hinv2
      (fun r hr => hqs r (List.mem_cons_of_mem _ hr))
    have hstep : copyEdgesOf g1 v (q :: rest) hcur =
        copyEdgesOf g1 v rest (connect hcur g1 v nq.value).1 := by
      have hpair : connect hcur g1 v nq.value =
          ((connect hcur g1 v nq.value).1, .ok ()) := by
        rw [← hok]
      simp only [copyEdgesOf, hnq']
      rw [hpair]
    refine ⟨h', hstep.trans e1, e2, ?_, ?_⟩
    · intro x y hy
      exact e3 x y (adjValues_connect_mono hinv.1 v nq.value hy)
    · intro r hr nr hnr
      rcases List.mem_cons.1 hr with rfl | hr
      · rw [hnq] at hnr
        have := Option.some.inj hnr
        subst this
        exact e3 v _ ((mem_adjValues_connect hinv.1 hv hkey v _).2
          (Or.inr (Or.inl ⟨rfl, rfl⟩)))
      · exact e4 r hr nr hnr

/-- The second loop of `copyOther`: it ends normally, keeps the invariant, and makes, for
every entry of `l`, the value of every pointer of its adjacency set adjacent to its value. -/
theorem copyEdges_spec {E : T → T → Prop} (hsymm : ∀ x y, E x y → E y x) {B : Nat}
    {h0 : Heap T} {g1 : Graph T} :
    ∀ (l : List (T × Nat)) (hcur : Heap T), CopyInv E B h0 g1 hcur →
      (∀ e ∈ l, e.1 ∈ g1.keys ∧ e.2 < B ∧ ∃ n, deref h0 e.2 = some n ∧
        ∀ q ∈ n.adjacents, q < B ∧
          ∃ nq, deref h0 q = some nq ∧ nq.value ∈ g1.keys ∧ E e.1 nq.value) →
      ∃ h', copyEdges g1 l hcur = (h', .ok ()) ∧ CopyInv E B h0 g1 h' ∧
        (∀ x y, y ∈ adjValues hcur g1 x → y ∈ adjValues h' g1 x) ∧
        ∀ e ∈ l, ∀ n, deref h0 e.2 = some n → ∀ q ∈ n.adjacents, ∀ nq,
          deref h0 q = some nq → nq.value ∈ adjValues h' g1 e.1 := by
  intro l
  induction l with
  | nil =>
    intro hcur hinv _
    exact ⟨hcur, rfl, hinv, fun _ _ hy => hy, fun e he => by simp at he⟩
  | cons e rest ih =>
    intro hcur hinv hl
    obtain ⟨v, p⟩ := e
    obtain ⟨hv, hpB, n, hn, hadj⟩ := hl (v, p) (List.mem_cons_self _ _)
    have hn' : deref hcur p = some n := (hinv.2.2.1 p hpB).trans hn
    obtain ⟨h1, a1, a2, a3, a4⟩ := copyEdgesOf_spec hsymm hv n.adjacents hcur hinv hadj
    obtain ⟨h', e1, e2, e3, e4⟩ := ih h1 a2 (fun r hr => hl r (List.mem_cons_of_mem _ hr))
    have hstep : copyEdges g1 ((v, p) :: rest) hcur = copyEdges g1 rest h1 := by
      simp only [copyEdges, hn', a1]
    refine ⟨h', hstep.trans e1, e2, fun x y hy => e3 x y (a3 x y hy), ?_⟩
    intro r hr nr hnr q hq nq hnq
    rcases List.mem_cons.1 hr with rfl | hr
    · simp only at hnr
      rw [hn] at hnr
      have := Option.some.inj hnr
      subst this
      exact e3 _ _ (a4 q hq nq hnq)
    · exact e4 r hr nr hnr q hq nq hnq

/-- The method `copyOther`, run on an empty graph with a well-formed source: it ends
normally and leaves a well-formed graph of new nodes that holds the values and the
adjacency of the source; no node that existed before is touched. -/
theorem copyOther_spec {h : Heap T} {other : Graph T} (hwf : WF h other) :
    ∃ hc gc, copyOther h { nodes := [] } other = (hc, gc, .ok ()) ∧ WF hc gc ∧
      Above h.length gc ∧ SameBelow h.length h hc ∧ SameGraph h other hc gc := by
  obtain ⟨i1, i2, i3, i4, i5, i6⟩ := copyInserts_spec h.length other.nodes h
    { nodes := [] } (WF.empty h) (le_refl _) (fun e he => by simp at he)
  have hkeys : ∀ v, v ∈ (copyInserts other.nodes h { nodes := [] }).2.keys ↔
      v ∈ other.keys := by
    intro v
    rw [i5 v]
    simp [Graph.keys]
  have hsymm : ∀ x y, y ∈ adjValues h other x → x ∈ adjValues h other y :=
    fun x y hy => adjValues_symm hwf hy
  have hinv : CopyInv (fun x y => y ∈ adjValues h other x) h.length h
      (copyInserts other.nodes h { nodes := [] }).2
      (copyInserts other.nodes h { nodes := [] }).1 := by
    refine ⟨i1, i3, i4, ?_⟩
    intro x y hy
    rw [i6 x] at hy
    simp [adjValues, find, findEntry] at hy
  obtain ⟨h', e1, e2, _, e4⟩ := copyEdges_spec hsymm other.nodes _ hinv (by
    intro e he
    obtain ⟨n, hn, hv, _, hadj⟩ := hwf.node e.1 e.2 he
    refine ⟨(hkeys _).2 (mem_keys_of_mem_nodes he), deref_lt hn, n, hn, ?_⟩
    intro q hq
    obtain ⟨m, hm, hmem, _⟩ := hadj q hq
    refine ⟨deref_lt hm, m, hm, (hkeys _).2 (mem_keys_of_mem_nodes hmem), ?_⟩
    rw [adjValues_of_find (hwf.find_of_mem he) hn, mem_valuesOf]
    exact ⟨q, hq, m, hm, rfl⟩)
  refine ⟨h', (copyInserts other.nodes h { nodes := [] }).2, ?_, e2.1, e2.2.1, e2.2.2.1,
    hkeys, ?_⟩
  · simp only [copyOther]
    rw [e1]
  · intro v w
    constructor
    · exact e2.2.2.2 v w
    · intro hw
      obtain ⟨hv, _⟩ := mem_keys_of_mem_adjValues hwf hw
      obtain ⟨p, hp⟩ := find_isSome_of_mem_keys hv
      obtain ⟨n, hn, _⟩ := hwf.node_of_find hp
      rw [adjValues_of_find hp hn, mem_valuesOf] at hw
      obtain ⟨q, hq, m, hm, rfl⟩ := hw
      exact e4 (v, p) (find_some_mem hp) n hn q hq m hm

theorem deref_free_eq (h : Heap T) (p : Nat) : deref (h.set p none) p = none := by
  unfold deref
  rw [List.getElem?_set]
  simp only [if_true]
  split <;> simp_all

theorem deref_free_ne (h : Heap T) {p q : Nat} (hne : p ≠ q) :
    deref (h.set p none) q = deref h q := by
  unfold deref
  rw [List.getElem?_set_ne hne]

/-- The loop of `clear` ends normally when every entry points to a live node and no node
is pointed to twice; it empties exactly the cells of the entries. -/
theorem clearLoop_spec :
    ∀ (l : List (T × Nat)) (h : Heap T), (l.map Prod.snd).Nodup →
      (∀ e ∈ l, (deref h e.2).isSome = true) →
      ∃ h1, clearLoop l h = (h1, .ok ()) ∧ h1.length = h.length ∧
        (∀ p ∈ l.map Prod.snd, deref h1 p = none) ∧
        ∀ p, p ∉ l.map Prod.snd → deref h1 p = deref h p := by
  intro l
  induction l with
  | nil =>
    intro h _ _
    exact ⟨h, rfl, rfl, fun p hp => by simp at hp, fun _ _ => rfl⟩
  | cons e rest ih =>
    intro h hnd hlive
    obtain ⟨v, p⟩ := e
    rw [List.map_cons, List.nodup_cons] at hnd
    have hp := hlive (v, p) (List.mem_cons_self _ _)
    obtain ⟨n, hn⟩ := Option.isSome_iff_exists.1 hp
    obtain ⟨h1, e1, e2, e3, e4⟩ := ih (h.set p none) hnd.2 (by
      intro e he
      have hne : p ≠ e.2 := fun heq => hnd.1 (heq ▸ List.mem_map.2 ⟨e, he, rfl⟩)
      rw [deref_free_ne h hne]
      exact hlive e (List.mem_cons_of_mem _ he))
    refine ⟨h1, ?_, by rw [e2]; simp, ?_, ?_⟩
    · simp only [clearLoop, hn]
      exact e1
    · intro r hr
      rcases List.mem_cons.1 hr with rfl | hr
      · by_cases hmem : r ∈ rest.map Prod.snd
        · exact e3 r hmem
        · rw [e4 r hmem]; exact deref_free_eq h r
      · exact e3 r hr
    · intro r hr
      simp only [List.map_cons, List.mem_cons, not_or] at hr
      rw [e4 r hr.2]
      exact deref_free_ne h (fun heq => hr.1 heq.symm)

/-- C8.  Copying a graph `g` built by `insert` and `connect` ends normally, by the copy
constructor and by assignment into any other graph object `this` of the heap.  The result is
a graph that stores every value once, stores exactly the values of `g`, and in which the
values adjacent to a value are exactly those adjacent to it in `g`.  After the assignment
every node `this` owned before is deleted, and all nodes of the result are new ones. -/
theorem copy_structurally_equivalent {h : Heap T} {g : Graph T} (hb : Built h g) :
    (∃ hc gc, copyConstruct h g = (hc, gc, .ok ()) ∧ WF hc gc ∧ SameGraph h g hc gc) ∧
    ∀ this, Separate h this g →
      ∃ hc gc, assign h this g false = (hc, gc, .ok ()) ∧ WF hc gc ∧
        SameGraph h g hc gc ∧ (∀ e ∈ this.nodes, deref hc e.2 = none) ∧
        Above h.length gc := by
  have hwf := hb.wf
  refine ⟨?_, ?_⟩
  · obtain ⟨hc, gc, e1, e2, _, _, e5⟩ := copyOther_spec hwf
    exact ⟨hc, gc, e1, e2, e5⟩
  · intro this hsep
    obtain ⟨h1, c1, c2, c3, c4⟩ := clearLoop_spec this.nodes h hsep.1
      (fun e he => (hsep.2 e he).1)
    have hag : ∀ e ∈ g.nodes, deref h1 e.2 = deref h e.2 := by
      intro e he
      apply c4
      intro hmem
      obtain ⟨e', he', heq⟩ := List.mem_map.1 hmem
      exact (hsep.2 e' he').2 (heq ▸ List.mem_map.2 ⟨e, he, rfl⟩)
    obtain ⟨hwf1, hadj1⟩ := hwf.agree hag
    obtain ⟨hc, gc, e1, e2, e3, e4, e5⟩ := copyOther_spec hwf1
    refine ⟨hc, gc, ?_, e2, ⟨e5.1, fun v w => ?_⟩, ?_, c2 ▸ e3⟩
    · simp only [assign, clear, c1, Bool.false_eq_true, if_false]
      exact e1
    · rw [e5.2 v w, hadj1 v]
    · intro e he
      obtain ⟨n, hn⟩ := Option.isSome_iff_exists.1 (hsep.2 e he).1
      have hlt : e.2 < h1.length := by rw [c2]; exact deref_lt hn
      rw [e4 e.2 hlt]
      exact c3 e.2 (List.mem_map.2 ⟨e, he, rfl⟩)

theorem exTwoGraphs_separate :
    Separate exTwoGraphs.1.1 exTwoGraphs.2 exTwoGraphs.1.2 := by
  refine ⟨by decide, ?_⟩
  intro e he
  have : e = (9, 0) := by simpa [exTwoGraphs, insert, find, findEntry, alloc] using he
  subst this
  exact ⟨by decide, by decide⟩

/-- Witness of C8: the graph 1-2-3 built in a heap that already holds another graph, copied
and assigned to that other graph. -/
theorem copy_structurally_equivalent_witness :
    (∃ hc gc, copyConstruct exTwoGraphs.1.1 exTwoGraphs.1.2 = (hc, gc, .ok ()) ∧
      WF hc gc ∧ SameGraph exTwoGraphs.1.1 exTwoGraphs.1.2 hc gc) ∧
    ∃ hc gc, assign exTwoGraphs.1.1 exTwoGraphs.2 exTwoGraphs.1.2 false =
        (hc, gc, .ok ()) ∧ WF hc gc ∧
      SameGraph exTwoGraphs.1.1 exTwoGraphs.1.2 hc gc ∧
      (∀ e ∈ exTwoGraphs.2.nodes, deref hc e.2 = none) ∧
      Above exTwoGraphs.1.1.length gc :=
  have hall := copy_structurally_equivalent
    (⟨_, _, run_runOps _ (insert [] { nodes := [] } 9).1 { nodes := [] }⟩ :
      Built exTwoGraphs.1.1 exTwoGraphs.1.2)
  ⟨hall.1, hall.2 exTwoGraphs.2 exTwoGraphs_separate⟩

theorem store_self {h : Heap T} {p : Nat} {n : Node T} (hn : deref h p = some n) :
    store h p n = h := by
  rw [deref_eq_some_iff] at hn
  apply List.ext_getElem?
  intro i
  unfold store
  rw [List.getElem?_set]
  by_cases hi : p = i
  · subst hi
    simp only [if_true]
    rw [hn]
    simp [(List.getElem?_eq_some_iff.1 hn).1]
  · simp [hi]

theorem setInsert_of_mem {s : List Nat} {x : Nat} (hx : x ∈ s) : setInsert s x = s := by
  simp [setInsert, hx]

/-- Connecting two live nodes that already hold each other changes nothing. -/
theorem connectPtr_noop {h : Heap T} {p q : Nat} {n1 n2 : Node T}
    (hp : deref h p = some n1) (hq : deref h q = some n2)
    (hqp : q ∈ n1.adjacents) (hpq : p ∈ n2.adjacents) :
    connectPtr h p q = (h, .ok ()) := by
  have e1 : store h p { n1 with adjacents := setInsert n1.adjacents q } = h := by
    rw [setInsert_of_mem hqp]; exact store_self hp
  have e2 : store h q { n2 with adjacents := setInsert n2.adjacents p } = h := by
    rw [setInsert_of_mem hpq]; exact store_self hq
  simp only [connectPtr, hp, e1, hq, e2]

theorem valuesOf_of_value_eq {h h2 : Heap T}
    (hv : ∀ q, (deref h2 q).map Node.value = (deref h q).map Node.value) (a : List Nat) :
    valuesOf h2 a = valuesOf h a := by
  unfold valuesOf
  congr 1
  funext q
  exact hv q

/-- C11.  In a well-formed graph holding `a` and `b`, `connect(a, b)` ends normally; after
it the node of `a` has the node of `b` in its adjacency set and the node of `b` has the node
of `a` in its own, so `b` is adjacent to `a` and `a` to `b`; every other node of the heap
is exactly as before, and the values adjacent to any other value are the same sequence as
before. -/
theorem connect_links_both_and_frames {h : Heap T} {g : Graph T} (hwf : WF h g) {a b : T}
    (ha : a ∈ g.keys) (hb : b ∈ g.keys) :
    ∃ p q h2, find g a = some p ∧ find g b = some q ∧ connect h g a b = (h2, .ok ()) ∧
      (∃ n, deref h2 p = some n ∧ q ∈ n.adjacents) ∧
      (∃ n, deref h2 q = some n ∧ p ∈ n.adjacents) ∧
      b ∈ adjValues h2 g a ∧ a ∈ adjValues h2 g b ∧
      (∀ r, r ≠ p → r ≠ q → deref h2 r = deref h r) ∧
      ∀ x, x ≠ a → x ≠ b → adjValues h2 g x = adjValues h g x := by
  obtain ⟨p, hp⟩ := find_isSome_of_mem_keys ha
  obtain ⟨q, hq⟩ := find_isSome_of_mem_keys hb
  obtain ⟨n1, hn1, hv1, _⟩ := hwf.node_of_find hp
  obtain ⟨n2, hn2, hv2, _⟩ := hwf.node_of_find hq
  obtain ⟨h2, hc, _, hspec⟩ := connectPtr_spec hn1 hn2
  have hconn : connect h g a b = (h2, .ok ()) := by rw [connect_of_find hp hq, hc]
  have hh2 : (connect h g a b).1 = h2 := by rw [hconn]
  have hframe : ∀ r, r ≠ p → r ≠ q → deref h2 r = deref h r := by
    intro r hrp hrq
    cases hd : deref h r with
    | none => exact (hspec r).1 hd
    | some n =>
      obtain ⟨n', e1, _, _, _, e5, _⟩ := (hspec r).2 n hd
      rw [e1, e5 hrp hrq]
  have hvals : ∀ r, (deref h2 r).map Node.value = (deref h r).map Node.value := by
    intro r
    cases hd : deref h r with
    | none => rw [(hspec r).1 hd]
    | some n =>
      obtain ⟨n', e1, e2, _⟩ := (hspec r).2 n hd
      rw [e1]; simp [e2]
  refine ⟨p, q, h2, hp, hq, hconn, ?_, ?_, ?_, ?_, hframe, ?_⟩
  · obtain ⟨n', e1, _, _, _, _, e6⟩ := (hspec p).2 n1 hn1
    exact ⟨n', e1, (e6 q).2 (Or.inr (Or.inl ⟨rfl, rfl⟩))⟩
  · obtain ⟨n', e1, _, _, _, _, e6⟩ := (hspec q).2 n2 hn2
    exact ⟨n', e1, (e6 p).2 (Or.inr (Or.inr ⟨rfl, rfl⟩))⟩
  · rw [← hh2]
    exact (mem_adjValues_connect hwf ha hb a b).2 (Or.inr (Or.inl ⟨rfl, rfl⟩))
  · rw [← hh2]
    exact (mem_adjValues_connect hwf ha hb b a).2 (Or.inr (Or.inr ⟨rfl, rfl⟩))
  · intro x hxa hxb
    cases hf : find g x with
    | none => simp [adjValues, hf]
    | some r =>
      obtain ⟨n, hn, _⟩ := hwf.node_of_find hf
      have hrp : r ≠ p := by
        intro e; subst e
        exact hxa (hwf.value_unique (find_some_mem hf) (find_some_mem hp))
      have hrq : r ≠ q := by
        intro e; subst e
        exact hxb (hwf.value_unique (find_some_mem hf) (find_some_mem hq))
      rw [adjValues_of_find hf hn, adjValues_of_find hf ((hframe r hrp hrq).trans hn)]
      exact valuesOf_of_value_eq hvals _

/-- Witness of C11: connecting 1 and 3 in `exChain3`. -/
theorem connect_links_both_and_frames_witness :
    ∃ p q h2, find exChain3.2 1 = some p ∧ find exChain3.2 3 = some q ∧
      connect exChain3.1 exChain3.2 1 3 = (h2, .ok ()) ∧
      (∃ n, deref h2 p = some n ∧ q ∈ n.adjacents) ∧
      (∃ n, deref h2 q = some n ∧ p ∈ n.adjacents) ∧
      3 ∈ adjValues h2 exChain3.2 1 ∧ 1 ∈ adjValues h2 exChain3.2 3 ∧
      (∀ r, r ≠ p → r ≠ q → deref h2 r = deref exChain3.1 r) ∧
      ∀ x, x ≠ 1 → x ≠ 3 → adjValues h2 exChain3.2 x = adjValues exChain3.1 exChain3.2 x :=
  connect_links_both_and_frames (built_runOps _).wf (by decide) (by decide)

/-- C13.  In a well-formed graph holding `a` and `b`, after `connect(a, b)` a second
`connect(a, b)` and a `connect(b, a)` both end normally and leave the heap exactly as the
first call left it: no adjacency set gains a second copy of the edge. -/
theorem connect_idempotent {h : Heap T} {g : Graph T} (hwf : WF h g) {a b : T}
    (ha : a ∈ g.keys) (hb : b ∈ g.keys) :
    (connect h g a b).2 = .ok () ∧
    connect (connect h g a b).1 g a b = ((connect h g a b).1, .ok ()) ∧
    connect (connect h g a b).1 g b a = ((connect h g a b).1, .ok ()) := by
  obtain ⟨p, hp⟩ := find_isSome_of_mem_keys ha
  obtain ⟨q, hq⟩ := find_isSome_of_mem_keys hb
  obtain ⟨n1, hn1, _⟩ := hwf.node_of_find hp
  obtain ⟨n2, hn2, _⟩ := hwf.node_of_find hq
  obtain ⟨h2, hc, _, hspec⟩ := connectPtr_spec hn1 hn2
  obtain ⟨m1, f1, _, _, _, _, f6⟩ := (hspec p).2 n1 hn1
  obtain ⟨m2, k1, _, _, _, _, k6⟩ := (hspec q).2 n2 hn2
  have hqm : q ∈ m1.adjacents := (f6 q).2 (Or.inr (Or.inl ⟨rfl, rfl⟩))
  have hpm : p ∈ m2.adjacents := (k6 p).2 (Or.inr (Or.inr ⟨rfl, rfl⟩))
  have hconn : connect h g a b = (h2, .ok ()) := by rw [connect_of_find hp hq, hc]
  rw [hconn]
  refine ⟨rfl, ?_, ?_⟩
  · rw [connect_of_find hp hq]; exact connectPtr_noop f1 k1 hqm hpm
  · rw [connect_of_find hq hp]; exact connectPtr_noop k1 f1 hpm hqm

/-- Witness of C13: connecting 1 and 3 in `exChain3` repeatedly. -/
theorem connect_idempotent_witness :
    (connect exChain3.1 exChain3.2 1 3).2 = .ok () ∧
    connect (connect exChain3.1 exChain3.2 1 3).1 exChain3.2 1 3 =
      ((connect exChain3.1 exChain3.2 1 3).1, .ok ()) ∧
    connect (connect exChain3.1 exChain3.2 1 3).1 exChain3.2 3 1 =
      ((connect exChain3.1 exChain3.2 1 3).1, .ok ()) :=
  connect_idempotent (built_runOps _).wf (by decide) (by decide)

theorem findEntry_append_new {l : List (T × Nat)} {v : T} (p : Nat)
    (hv : v ∉ l.map Prod.fst) : findEntry (l ++ [(v, p)]) v = some p := by
  induction l with
  | nil => simp [findEntry]
  | cons e rest ih =>
    obtain ⟨k, q⟩ := e
    simp only [List.map_cons, List.mem_cons, not_or] at hv
    have hk : ¬ k = v := fun e => hv.1 e.symm
    simp only [List.cons_append, findEntry, hk, if_false]
    exact ih hv.2

/-- C14 (fails on the code as stated).  The node `insert(1)` creates in the empty graph does
not have its marker cleared: the constructor of `Node` never writes `marked`. -/
theorem insert_new_marker_not_cleared :
    ¬ ∃ p n, (insert ([] : Heap Nat) { nodes := [] } 1).2.2 = some p ∧
      deref (insert ([] : Heap Nat) { nodes := [] } 1).1 p = some n ∧
      n.value = 1 ∧ n.adjacents = [] ∧ n.marked = some false := by
  rintro ⟨p, n, hp, hn, _, _, hm⟩
  have hp0 : p = 0 := by
    have : (insert ([] : Heap Nat) { nodes := [] } 1).2.2 = some 0 := by decide
    rw [this] at hp
    exact (Option.some.inj hp).symm
  subst hp0
  have : deref (insert ([] : Heap Nat) { nodes := [] } 1).1 0 =
      some { adjacents := [], value := 1, marked := none } := by decide
  rw [this] at hn
  have := Option.some.inj hn
  subst this
  simp at hm

/-- C14 (amended).  When `v` is not stored, `insert(v)` returns a pointer to a node that did
not exist before, is stored under `v`, holds the value `v`, has an empty adjacency set and
an uninitialised marker; every node that was live before is unchanged, and every value
stored before is still stored under the same pointer. -/
theorem insert_absent_creates_node (h : Heap T) (g : Graph T) (v : T) (hv : v ∉ g.keys) :
    ∃ p, (insert h g v).2.2 = some p ∧ deref h p = none ∧
      find (insert h g v).2.1 v = some p ∧
      deref (insert h g v).1 p = some { adjacents := [], value := v, marked := none } ∧
      (∀ q n, deref h q = some n → deref (insert h g v).1 q = some n) ∧
      ∀ x, x ∈ g.keys → find (insert h g v).2.1 x = find g x := by
  rw [insert_of_not_mem hv]
  refine ⟨h.length, rfl, ?_, findEntry_append_new _ hv, deref_alloc_new _ _, ?_, ?_⟩
  · cases hd : deref h h.length with
    | none => rfl
    | some n => exact absurd (deref_lt hd) (lt_irrefl _)
  · intro q n hn
    exact deref_append_left _ hn
  · intro x hx
    exact findEntry_append_of_mem _ hx

/-- Witness of C14 (amended): inserting 7 into `exChain3`. -/
theorem insert_absent_creates_node_witness :
    ∃ p, (insert exChain3.1 exChain3.2 7).2.2 = some p ∧ deref exChain3.1 p = none ∧
      find (insert exChain3.1 exChain3.2 7).2.1 7 = some p ∧
      deref (insert exChain3.1 exChain3.2 7).1 p =
        some { adjacents := [], value := 7, marked := none } ∧
      (∀ q n, deref exChain3.1 q = some n →
        deref (insert exChain3.1 exChain3.2 7).1 q = some n) ∧
      ∀ x, x ∈ exChain3.2.keys →
        find (insert exChain3.1 exChain3.2 7).2.1 x = find exChain3.2 x :=
  insert_absent_creates_node exChain3.1 exChain3.2 7 (by decide)

/-- The loop of `unmarkAll` over live entries: it ends normally, every entry's node ends
with a cleared marker, every cell keeps its adjacency set and value, and a cell that is no
entry's node is not touched. -/
theorem unmarkAllLoop_marks :
    ∀ (l : List (T × Nat)) (h : Heap T), (∀ e ∈ l, ∃ n, deref h e.2 = some n) →
      ∃ h1, unmarkAllLoop l h = (h1, .ok ()) ∧ SameShape h h1 ∧
        (∀ e ∈ l, ∃ n, deref h1 e.2 = some n ∧ n.marked = some false) ∧
        ∀ r, r ∉ l.map Prod.snd → deref h1 r = deref h r := by
  intro l
  induction l with
  | nil => intro h _; exact ⟨h, rfl, SameShape.same h, fun e he => by simp at he, fun _ _ => rfl⟩
  | cons e rest ih =>
    intro h hl
    obtain ⟨v, p⟩ := e
    obtain ⟨n, hn⟩ := hl (v, p) (List.mem_cons_self _ _)
    have hs : SameShape h (store h p { n with marked := some false }) :=
      sameShape_store hn rfl rfl
    obtain ⟨h1, e1, e2, e3, e4⟩ := ih (store h p { n with marked := some false }) (by
      intro e he
      obtain ⟨m, hm⟩ := hl e (List.mem_cons_of_mem _ he)
      obtain ⟨m1, hm1, _⟩ := hs.deref_some hm
      exact ⟨m1, hm1⟩)
    refine ⟨h1, ?_, hs.chain e2, ?_, ?_⟩
    · simp only [unmarkAllLoop, hn]
      exact e1
    · intro e he
      rcases List.mem_cons.1 he with rfl | he
      · by_cases hmem : p ∈ rest.map Prod.snd
        · obtain ⟨e', he', heq⟩ := List.mem_map.1 hmem
          obtain ⟨m, hm, hmk⟩ := e3 e' he'
          exact ⟨m, by simpa [heq] using hm, hmk⟩
        · refine ⟨{ n with marked := some false }, ?_, rfl⟩
          simp only
          rw [e4 p hmem]
          exact deref_store_eq _ (deref_lt hn)
      · exact e3 e he
    · intro r hr
      simp only [List.map_cons, List.mem_cons, not_or] at hr
      rw [e4 r hr.2]
      exact deref_store_ne h _ (fun heq => hr.1 heq.symm)

/-- C16.  In a well-formed graph `unmarkAll` ends normally; afterwards the marker of the
node of every stored value is `false`, the heap has the same cells, and every cell holds
the same value and the same adjacency set as before, so the values adjacent to any value
are unchanged; the map `nodes` is not written. -/
theorem unmarkAll_clears_markers_only {h : Heap T} {g : Graph T} (hwf : WF h g) :
    ∃ h1, unmarkAll h g = (h1, .ok ()) ∧
      (∀ v, v ∈ g.keys → markerOf h1 g v = some (some false)) ∧
      h1.length = h.length ∧
      (∀ p, ((deref h1 p).map fun n => (n.adjacents, n.value)) =
            (deref h p).map fun n => (n.adjacents, n.value)) ∧
      ∀ v, adjValues h1 g v = adjValues h g v := by
  obtain ⟨h1, e1, e2, e3, _⟩ := unmarkAllLoop_marks g.nodes h (by
    intro e he
    obtain ⟨n, hn, _⟩ := hwf.node e.1 e.2 he
    exact ⟨n, hn⟩)
  refine ⟨h1, e1, ?_, e2.1, e2.2, fun v => adjValues_sameShape e2 g v⟩
  intro v hv
  obtain ⟨p, hp⟩ := find_isSome_of_mem_keys hv
  obtain ⟨n, hn, hmk⟩ := e3 (v, p) (find_some_mem hp)
  simp only [markerOf, hp]
  simp only at hn
  rw [hn]
  simp [hmk]

/-- Witness of C16: `unmarkAll` on `exChain3`, whose markers were never initialised. -/
theorem unmarkAll_clears_markers_only_witness :
    ∃ h1, unmarkAll exChain3.1 exChain3.2 = (h1, .ok ()) ∧
      (∀ v, v ∈ exChain3.2.keys → markerOf h1 exChain3.2 v = some (some false)) ∧
      h1.length = exChain3.1.length ∧
      (∀ p, ((deref h1 p).map fun n => (n.adjacents, n.value)) =
            (deref exChain3.1 p).map fun n => (n.adjacents, n.value)) ∧
      ∀ v, adjValues h1 exChain3.2 v = adjValues exChain3.1 exChain3.2 v :=
  unmarkAll_clears_markers_only (built_runOps _).wf

/-- With a symmetric adjacency, the loop on values started from the single path `[start]`
returns only paths of at most four values. -/
theorem vLoop_length_le_four (adj : T → List T) (hsymm : ∀ x y, y ∈ adj x → x ∈ adj y)
    (start endV : T) :
    ∀ (fuel : Nat) (b : List T), vLoop adj endV fuel [[start]] = some (.ok b) →
      b.length ≤ 4 := by
  intro fuel b hb
  cases fuel with
  | zero => simp [vLoop] at hb
  | succ f1 =>
    by_cases h1 : endV ∈ adj start
    · rw [vLoop_found adj endV f1 [start] [] start rfl h1] at hb
      simp at hb; subst hb; simp
    · rw [vLoop_next adj endV f1 [start] [] start rfl h1] at hb
      cases hs : adj start with
      | nil => rw [hs] at hb; cases f1 <;> simp [vLoop] at hb
      | cons y more =>
        have hys : start ∈ adj y := hsymm start y (by rw [hs]; exact List.mem_cons_self _ _)
        rw [hs] at hb
        simp only [List.dropLast_single, List.nil_append, List.map_cons] at hb
        cases f1 with
        | zero => simp [vLoop] at hb
        | succ f2 =>
          by_cases h2 : endV ∈ adj y
          · rw [vLoop_found adj endV f2 ([start] ++ [y]) _ y (by simp) h2] at hb
            simp at hb; subst hb; simp
          · cases more with
            | cons y' more' =>
              exact absurd hb (vLoop_stuck adj endV ([start] ++ [y]) y (by simp) h2 _ _
                (Or.inr ⟨_, rfl, Or.inl (by simp)⟩) b)
            | nil =>
              simp only [List.map_nil] at hb
              rw [vLoop_next adj endV f2 ([start] ++ [y]) [] y (by simp) h2] at hb
              cases hy : adj y with
              | nil => rw [hy] at hys; simp at hys
              | cons z more2 =>
                rw [hy] at hb
                simp only [List.dropLast_single, List.nil_append, List.map_cons] at hb
                cases more2 with
                | nil =>
                  have hz : z = start := by
                    rw [hy] at hys
                    exact (List.mem_singleton.1 hys).symm
                  subst hz
                  have hey : endV ≠ y := fun e => h1 (by rw [hs, e]; simp)
                  have hes : endV ≠ z := fun e => h2 (by rw [hy, e]; simp)
                  simp only [List.map_nil] at hb
                  rw [vLoop_back_and_forth adj z y endV hs hy hes hey f2
                    ([z] ++ [y] ++ [z]) (Or.inl (by simp))] at hb
                  simp at hb
                | cons z' more3 =>
                  cases f2 with
                  | zero => simp [vLoop] at hb
                  | succ f3 =>
                    by_cases h3 : endV ∈ adj z
                    · rw [vLoop_found adj endV f3 ([start] ++ [y] ++ [z]) _ z (by simp) h3]
                        at hb
                      simp at hb; subst hb; simp
                    · exact absurd hb (vLoop_stuck adj endV ([start] ++ [y] ++ [z]) z
                        (by simp) h3 _ _ (Or.inr ⟨_, rfl, Or.inl (by simp)⟩) b)

/-- C17.  On a graph built by `insert` and `connect`, a path returned by `shortestPath` has
at most four nodes, that is at most three edges. -/
theorem shortestPath_returns_at_most_four {h : Heap T} {g : Graph T} (hb : Built h g)
    {start endV : T} {fuel : Nat} {h' : Heap T} {path : List Nat}
    (hr : shortestPath h g start endV fuel = some (h', .ok path)) :
    path.length ≤ 4 := by
  obtain ⟨hv, hlen, _⟩ := vLoop_of_shortestPath_ok hb.wf hr
  have := vLoop_length_le_four (adjValues h g) (fun x y hy => adjValues_symm hb.wf hy)
    start endV fuel _ hv
  omega

theorem exChain4_shortestPath :
    shortestPath exChain4.1 exChain4.2 1 4 3 =
      some ([some ⟨[1], 1, some false⟩, some ⟨[2, 0], 2, some false⟩,
        some ⟨[1, 3], 3, some false⟩, some ⟨[2], 4, some false⟩,
        some ⟨[], 1, none⟩, some ⟨[], 2, none⟩, some ⟨[], 3, none⟩,
        some ⟨[], 1, none⟩, some ⟨[], 2, none⟩, some ⟨[], 4, none⟩],
        .ok [4, 5, 6, 9]) := by
  decide

/-- Witness of C17: on `exChain4` the call `shortestPath(1, 4)` returns four nodes. -/
theorem shortestPath_returns_at_most_four_witness :
    [4, 5, 6, 9].length ≤ 4 :=
  shortestPath_returns_at_most_four (built_runOps _) exChain4_shortestPath

theorem WF.addr_lt {h : Heap T} {g : Graph T} (hwf : WF h g) {e : T × Nat}
    (he : e ∈ g.nodes) : e.2 < h.length := by
  obtain ⟨n, hn, _⟩ := hwf.node e.1 e.2 he
  exact deref_lt hn

theorem WF.addr_nodup {h : Heap T} {g : Graph T} (hwf : WF h g) :
    (g.nodes.map Prod.snd).Nodup := by
  have hnd : g.nodes.Nodup := List.Nodup.of_map Prod.fst hwf.keys_nodup
  refine List.Nodup.map_on ?_ hnd
  intro x hx y hy hxy
  have hx' : (x.1, y.2) ∈ g.nodes := by rw [← hxy]; exact hx
  have := hwf.value_unique hx' hy
  exact Prod.ext this hxy

/-- The method `connect` touches no cell that is not a node of the graph. -/
theorem connect_frame {h : Heap T} {g : Graph T} (hwf : WF h g) (a b : T) {r : Nat}
    (hr : r ∉ g.nodes.map Prod.snd) : deref (connect h g a b).1 r = deref h r := by
  by_cases hab : a ∈ g.keys ∧ b ∈ g.keys
  · obtain ⟨p, hp⟩ := find_isSome_of_mem_keys hab.1
    obtain ⟨q, hq⟩ := find_isSome_of_mem_keys hab.2
    obtain ⟨n1, hn1, _⟩ := hwf.node_of_find hp
    obtain ⟨n2, hn2, _⟩ := hwf.node_of_find hq
    obtain ⟨h2, hc, _, hspec⟩ := connectPtr_spec hn1 hn2
    rw [connect_of_find hp hq, hc]
    have hrp : r ≠ p := fun e => hr (e ▸ List.mem_map.2 ⟨(a, p), find_some_mem hp, rfl⟩)
    have hrq : r ≠ q := fun e => hr (e ▸ List.mem_map.2 ⟨(b, q), find_some_mem hq, rfl⟩)
    cases hd : deref h r with
    | none => exact (hspec r).1 hd
    | some n =>
      obtain ⟨n', e1, _, _, _, e5, _⟩ := (hspec r).2 n hd
      rw [e1, e5 hrp hrq]
  · rw [connect_of_not_mem (by tauto)]

theorem untouched_insert {h : Heap T} {g : Graph T} (hwf : WF h g) (g2 : Graph T) (v : T) :
    Untouched h (insert h g2 v).1 g :=
  fun _ he => sameBelow_insert h g2 v (le_refl _) _ (hwf.addr_lt he)

theorem untouched_connect {h : Heap T} {g g2 : Graph T} (hwf2 : WF h g2)
    (hdis : Disjoint2 g g2) (a b : T) : Untouched h (connect h g2 a b).1 g := by
  intro e he
  apply connect_frame hwf2
  intro hmem
  obtain ⟨e2, he2, heq⟩ := List.mem_map.1 hmem
  exact hdis e he e2 he2 heq.symm

theorem Untouched.keeps_graph {h h' : Heap T} {g : Graph T} (hu : Untouched h h' g)
    (hwf : WF h g) : WF h' g ∧ ∀ x, adjValues h' g x = adjValues h g x :=
  hwf.agree hu

theorem disjoint2_of_above {h : Heap T} {g gc : Graph T} (hwf : WF h g)
    (ha : Above h.length gc) : Disjoint2 g gc := by
  intro e1 he1 e2 he2 heq
  have h1 := hwf.addr_lt he1
  have h2 := ha e2 he2
  omega

theorem untouched_of_sameBelow {h hc : Heap T} {g : Graph T} (hwf : WF h g)
    (hs : SameBelow h.length h hc) : Untouched h hc g :=
  fun _ he => hs _ (hwf.addr_lt he)

/-- C15.  Let `g` be a well-formed graph and `gc` its copy, made by the copy constructor in
the heap `hc`.  Then `g` is in `hc` what it was before the copy, and the two graphs are
independent: `insert` into or `connect` in the copy leaves every node of `g` exactly as it
is (value, adjacency set, marker), hence also the values adjacent to every value of `g`,
and `insert` into or `connect` in `g` does the same for the copy.  The map `nodes` of a
graph is written only by operations on that graph. -/
theorem copy_is_independent {h : Heap T} {g : Graph T} (hwf : WF h g) :
    ∃ hc gc, copyConstruct h g = (hc, gc, .ok ()) ∧
      Untouched h hc g ∧ (∀ x, adjValues hc g x = adjValues h g x) ∧
      (∀ v, Untouched hc (insert hc gc v).1 g ∧
        ∀ x, adjValues (insert hc gc v).1 g x = adjValues hc g x) ∧
      (∀ a b, Untouched hc (connect hc gc a b).1 g ∧
        ∀ x, adjValues (connect hc gc a b).1 g x = adjValues hc g x) ∧
      (∀ v, Untouched hc (insert hc g v).1 gc ∧
        ∀ x, adjValues (insert hc g v).1 gc x = adjValues hc gc x) ∧
      (∀ a b, Untouched hc (connect hc g a b).1 gc ∧
        ∀ x, adjValues (connect hc g a b).1 gc x = adjValues hc gc x) := by
  obtain ⟨hc, gc, e1, e2, e3, e4, _⟩ := copyOther_spec hwf
  have hu : Untouched h hc g := untouched_of_sameBelow hwf e4
  obtain ⟨hwfc, hadj⟩ := hu.keeps_graph hwf
  have hdis : Disjoint2 g gc := disjoint2_of_above hwf e3
  have hdis' : Disjoint2 gc g := fun e1 he1 e2 he2 heq => hdis e2 he2 e1 he1 heq.symm
  refine ⟨hc, gc, e1, hu, hadj, ?_, ?_, ?_, ?_⟩
  · intro v
    have := untouched_insert hwfc gc v
    exact ⟨this, (this.keeps_graph hwfc).2⟩
  · intro a b
    have := untouched_connect e2 hdis a b
    exact ⟨this, (this.keeps_graph hwfc).2⟩
  · intro v
    have := untouched_insert e2 g v
    exact ⟨this, (this.keeps_graph e2).2⟩
  · intro a b
    have := untouched_connect hwfc hdis' a b
    exact ⟨this, (this.keeps_graph e2).2⟩

/-- Witness of C15: the copy of `exChain3`. -/
theorem copy_is_independent_witness :
    ∃ hc gc, copyConstruct exChain3.1 exChain3.2 = (hc, gc, .ok ()) ∧
      Untouched exChain3.1 hc exChain3.2 ∧
      (∀ x, adjValues hc exChain3.2 x = adjValues exChain3.1 exChain3.2 x) ∧
      (∀ v, Untouched hc (insert hc gc v).1 exChain3.2 ∧
        ∀ x, adjValues (insert hc gc v).1 exChain3.2 x = adjValues hc exChain3.2 x) ∧
      (∀ a b, Untouched hc (connect hc gc a b).1 exChain3.2 ∧
        ∀ x, adjValues (connect hc gc a b).1 exChain3.2 x = adjValues hc exChain3.2 x) ∧
      (∀ v, Untouched hc (insert hc exChain3.2 v).1 gc ∧
        ∀ x, adjValues (insert hc exChain3.2 v).1 gc x = adjValues hc gc x) ∧
      (∀ a b, Untouched hc (connect hc exChain3.2 a b).1 gc ∧
        ∀ x, adjValues (connect hc exChain3.2 a b).1 gc x = adjValues hc gc x) :=
  copy_is_independent (built_runOps _).wf

theorem disjoint2_symm {g1 g2 : Graph T} (hd : Disjoint2 g1 g2) : Disjoint2 g2 g1 :=
  fun e1 he1 e2 he2 heq => hd e2 he2 e1 he1 heq.symm

theorem getElem?_snoc_cases {α : Type} {l : List α} {a x : α} {k : Nat}
    (hk : (l ++ [a])[k]? = some x) : l[k]? = some x ∨ (k = l.length ∧ x = a) := by
  by_cases hlt : k < l.length
  · rw [List.getElem?_append_left hlt] at hk
    exact Or.inl hk
  · right
    rw [List.getElem?_append_right (by omega)] at hk
    have hk0 : k - l.length = 0 := by
      by_contra hne
      have : ([a] : List α)[k - l.length]? = none := by
        apply List.getElem?_eq_none
        simp; omega
      rw [this] at hk
      simp at hk
    rw [hk0] at hk
    simp at hk
    exact ⟨by omega, hk.symm⟩

theorem getElem?_lt {α : Type} {l : List α} {x : α} {k : Nat} (hk : l[k]? = some x) :
    k < l.length :=
  (List.getElem?_eq_some_iff.1 hk).1

theorem getElem?_set_cases {α : Type} {l : List α} {a x : α} {i k : Nat}
    (hk : (l.set i a)[k]? = some x) : (k = i ∧ x = a) ∨ (k ≠ i ∧ l[k]? = some x) := by
  rw [List.getElem?_set] at hk
  by_cases hik : i = k
  · subst hik
    simp only [if_true] at hk
    split at hk
    · exact Or.inl ⟨rfl, (Option.some.inj hk).symm⟩
    · simp at hk
  · simp only [hik, if_false] at hk
    exact Or.inr ⟨fun e => hik e.symm, hk⟩

theorem set_eq_self {α : Type} {l : List α} {a : α} {i : Nat} (hi : l[i]? = some a) :
    l.set i a = l := by
  apply List.ext_getElem?
  intro k
  rw [List.getElem?_set]
  by_cases hik : i = k
  · subst hik
    simp [getElem?_lt hi, hi]
  · simp [hik]

/-- Replacing one graph object and the heap keeps the invariant when the new object is well
formed and disjoint from the others, and the others are untouched. -/
theorem WInv.update {h h' : Heap T} {gs : List (Graph T)} (hinv : WInv h gs) (i : Nat)
    {g' : Graph T} (hwf' : WF h' g')
    (hothers : ∀ (k : Nat) (gk : Graph T), k ≠ i → gs[k]? = some gk →
      Untouched h h' gk ∧ Disjoint2 g' gk) :
    WInv h' (gs.set i g') := by
  refine ⟨?_, ?_⟩
  · intro k x hk
    rcases getElem?_set_cases hk with ⟨_, rfl⟩ | ⟨hki, hk'⟩
    · exact hwf'
    · exact ((hothers k x hki hk').1.keeps_graph (hinv.1 k x hk')).1
  · intro k1 k2 x1 x2 hne hk1 hk2
    rcases getElem?_set_cases hk1 with ⟨rfl, rfl⟩ | ⟨hk1i, hk1'⟩
    · rcases getElem?_set_cases hk2 with ⟨rfl, _⟩ | ⟨hk2i, hk2'⟩
      · exact absurd rfl hne
      · exact (hothers k2 x2 hk2i hk2').2
    · rcases getElem?_set_cases hk2 with ⟨rfl, rfl⟩ | ⟨_, hk2'⟩
      · exact disjoint2_symm (hothers k1 x1 hk1i hk1').2
      · exact hinv.2 k1 k2 x1 x2 hne hk1' hk2'

/-- Adding a graph object and changing the heap keeps the invariant when the new object is
well formed and disjoint from the others, and the others are untouched. -/
theorem WInv.push {h h' : Heap T} {gs : List (Graph T)} (hinv : WInv h gs)
    {g' : Graph T} (hwf' : WF h' g')
    (hothers : ∀ (k : Nat) (gk : Graph T), gs[k]? = some gk →
      Untouched h h' gk ∧ Disjoint2 g' gk) :
    WInv h' (gs ++ [g']) := by
  refine ⟨?_, ?_⟩
  · intro k x hk
    rcases getElem?_snoc_cases hk with hk' | ⟨_, rfl⟩
    · exact ((hothers k x hk').1.keeps_graph (hinv.1 k x hk')).1
    · exact hwf'
  · intro k1 k2 x1 x2 hne hk1 hk2
    rcases getElem?_snoc_cases hk1 with hk1' | ⟨rfl, rfl⟩
    · rcases getElem?_snoc_cases hk2 with hk2' | ⟨rfl, rfl⟩
      · exact hinv.2 k1 k2 x1 x2 hne hk1' hk2'
      · exact disjoint2_symm (hothers k1 x1 hk1').2
    · rcases getElem?_snoc_cases hk2 with hk2' | ⟨hk2e, _⟩
      · exact (hothers k2 x2 hk2').2
      · exact absurd hk2e.symm hne

theorem mem_nodes_insert {h : Heap T} {g : Graph T} {v : T} {e : T × Nat}
    (he : e ∈ (insert h g v).2.1.nodes) : e ∈ g.nodes ∨ e.2 = h.length := by
  by_cases hv : v ∈ g.keys
  · rw [insert_of_mem hv] at he; exact Or.inl he
  · rw [insert_of_not_mem hv] at he
    rcases List.mem_append.1 he with he | he
    · exact Or.inl he
    · simp at he; subst he; exact Or.inr rfl

/-- The assignment of a well-formed graph `other` to a separate graph `this`: it ends
normally and leaves a well-formed graph of new nodes that holds the graph of `other`; the
nodes of `this` are deleted and no other cell that existed before is touched. -/
theorem assign_spec {h : Heap T} {this other : Graph T} (hwf : WF h other)
    (hsep : Separate h this other) :
    ∃ hc gc, assign h this other false = (hc, gc, .ok ()) ∧ WF hc gc ∧
      SameGraph h other hc gc ∧ Above h.length gc ∧
      ∀ r, r < h.length → r ∉ this.nodes.map Prod.snd → deref hc r = deref h r := by
  obtain ⟨h1, c1, c2, c3, c4⟩ := clearLoop_spec this.nodes h hsep.1
    (fun e he => (hsep.2 e he).1)
  have hag : ∀ e ∈ other.nodes, deref h1 e.2 = deref h e.2 := by
    intro e he
    apply c4
    intro hmem
    obtain ⟨e', he', heq⟩ := List.mem_map.1 hmem
    exact (hsep.2 e' he').2 (heq ▸ List.mem_map.2 ⟨e, he, rfl⟩)
  obtain ⟨hwf1, hadj1⟩ := hwf.agree hag
  obtain ⟨hc, gc, e1, e2, e3, e4, e5⟩ := copyOther_spec hwf1
  refine ⟨hc, gc, ?_, e2, ⟨e5.1, fun v w => ?_⟩, c2 ▸ e3, ?_⟩
  · simp only [assign, clear, c1, Bool.false_eq_true, if_false]
    exact e1
  · rw [e5.2 v w, hadj1 v]
  · intro r hr hmem
    rw [e4 r (by rw [c2]; exact hr), c4 r hmem]

theorem separate_of_winv {h : Heap T} {gs : List (Graph T)} (hinv : WInv h gs) {i j : Nat}
    {this other : Graph T} (hij : i ≠ j) (hi : gs[i]? = some this)
    (hj : gs[j]? = some other) : Separate h this other := by
  have hwf := hinv.1 i this hi
  refine ⟨hwf.addr_nodup, ?_⟩
  intro e he
  obtain ⟨n, hn, _⟩ := hwf.node e.1 e.2 he
  refine ⟨by rw [hn]; rfl, ?_⟩
  intro hmem
  obtain ⟨e2, he2, heq⟩ := List.mem_map.1 hmem
  exact hinv.2 i j this other hij hi hj e he e2 he2 heq.symm

theorem untouched_of_unmarkAll {h : Heap T} {g gk : Graph T} (hwf : WF h g)
    (hdis : Disjoint2 gk g) : Untouched h (unmarkAll h g).1 gk := by
  obtain ⟨h1, e1, _, _, e4⟩ := unmarkAllLoop_marks g.nodes h (by
    intro e he
    obtain ⟨n, hn, _⟩ := hwf.node e.1 e.2 he
    exact ⟨n, hn⟩)
  have : unmarkAll h g = (h1, .ok ()) := e1
  rw [this]
  intro e he
  apply e4
  intro hmem
  obtain ⟨e2, he2, heq⟩ := List.mem_map.1 hmem
  exact hdis e he e2 he2 heq.symm

/-- Every operation on the graph objects keeps the invariant of the program state. -/
theorem WInv.after_op {h : Heap T} {gs : List (Graph T)} (hinv : WInv h gs) (op : WOp T) :
    WInv (Csc340.applyWOp (h, gs) op).1 (Csc340.applyWOp (h, gs) op).2 := by
  cases op with
  | construct =>
    exact hinv.push (WF.empty h)
      (fun k gk _ => ⟨fun _ _ => rfl, fun e1 he1 => by simp at he1⟩)
  | insert i v =>
    simp only [Csc340.applyWOp]
    cases hi : gs[i]? with
    | none => exact hinv
    | some g =>
      simp only
      have hwf := hinv.1 i g hi
      refine hinv.update i (hwf.insert v) ?_
      intro k gk hki hk
      have hwfk := hinv.1 k gk hk
      refine ⟨untouched_insert hwfk g v, ?_⟩
      intro e1 he1 e2 he2 heq
      rcases mem_nodes_insert he1 with he1 | he1
      · exact hinv.2 i k g gk (fun e => hki e.symm) hi hk e1 he1 e2 he2 heq
      · have := hwfk.addr_lt he2
        omega
  | connect i a b =>
    simp only [Csc340.applyWOp]
    cases hi : gs[i]? with
    | none => exact hinv
    | some g =>
      simp only
      have hwf := hinv.1 i g hi
      have := hinv.update i (hwf.connect a b) (fun k gk hki hk =>
        ⟨untouched_connect hwf (hinv.2 k i gk g hki hk hi) a b,
          hinv.2 i k g gk (fun e => hki e.symm) hi hk⟩)
      rwa [set_eq_self hi] at this
  | unmarkAll i =>
    simp only [Csc340.applyWOp]
    cases hi : gs[i]? with
    | none => exact hinv
    | some g =>
      simp only
      have hwf := hinv.1 i g hi
      obtain ⟨h1, e1, e2⟩ := unmarkAll_spec hwf
      have hwf1 : WF (unmarkAll h g).1 g := by rw [e1]; exact hwf.sameShape e2
      have := hinv.update i hwf1 (fun k gk hki hk =>
        ⟨untouched_of_unmarkAll hwf (hinv.2 k i gk g hki hk hi),
          hinv.2 i k g gk (fun e => hki e.symm) hi hk⟩)
      rwa [set_eq_self hi] at this
  | copy i =>
    simp only [Csc340.applyWOp]
    cases hi : gs[i]? with
    | none => exact hinv
    | some g =>
      simp only
      have hwf := hinv.1 i g hi
      obtain ⟨hc, gc, e1, e2, e3, e4, _⟩ := copyOther_spec hwf
      have hcc : copyConstruct h g = (hc, gc, .ok ()) := e1
      rw [hcc]
      refine hinv.push e2 ?_
      intro k gk hk
      have hwfk := hinv.1 k gk hk
      exact ⟨untouched_of_sameBelow hwfk e4, disjoint2_symm (disjoint2_of_above hwfk e3)⟩
  | assign i j =>
    simp only [Csc340.applyWOp]
    cases hi : gs[i]? with
    | none => exact hinv
    | some this =>
      cases hj : gs[j]? with
      | none => exact hinv
      | some other =>
        simp only
        by_cases hij : i = j
        · subst hij
          simp only [assign, beq_self_eq_true, if_true]
          rw [set_eq_self hi]
          exact hinv
        · have hbeq : (i == j) = false := by simpa using hij
          rw [hbeq]
          have hwfo := hinv.1 j other hj
          obtain ⟨hc, gc, e1, e2, _, e4, e5⟩ :=
            assign_spec hwfo (separate_of_winv hinv hij hi hj)
          rw [e1]
          refine hinv.update i e2 ?_
          intro k gk hki hk
          have hwfk := hinv.1 k gk hk
          refine ⟨?_, disjoint2_symm (disjoint2_of_above hwfk e4)⟩
          intro e he
          apply e5 _ (hwfk.addr_lt he)
          intro hmem
          obtain ⟨e2', he2', heq⟩ := List.mem_map.1 hmem
          exact hinv.2 k i gk this hki hk hi e he e2' he2' heq.symm

theorem WInv.worldReorder {h h' : Heap T} {gs gs' : List (Graph T)} (hinv : WInv h gs)
    (hr : WorldReorder h gs h' gs') : WInv h' gs' := by
  obtain ⟨hlen, hcell, hglen, hperm⟩ := hr
  have hback : ∀ (k : Nat) (g' : Graph T), gs'[k]? = some g' →
      ∃ g, gs[k]? = some g ∧ g.nodes.Perm g'.nodes := by
    intro k g' hk
    have hlt : k < gs.length := by rw [hglen]; exact getElem?_lt hk
    exact ⟨gs[k], List.getElem?_eq_getElem hlt,
      hperm k gs[k] g' (List.getElem?_eq_getElem hlt) hk⟩
  refine ⟨?_, ?_⟩
  · intro k g' hk
    obtain ⟨g, hg, hp⟩ := hback k g' hk
    exact (hinv.1 k g hg).reorder ⟨hp, hlen, hcell⟩
  · intro k1 k2 x1 x2 hne hk1 hk2 e1 he1 e2 he2
    obtain ⟨g1, hg1, hp1⟩ := hback k1 x1 hk1
    obtain ⟨g2, hg2, hp2⟩ := hback k2 x2 hk2
    exact hinv.2 k1 k2 g1 g2 hne hg1 hg2 e1 (hp1.mem_iff.2 he1) e2 (hp2.mem_iff.2 he2)

/-- Every reachable program state satisfies the invariant. -/
theorem Reach.winv {h : Heap T} {gs : List (Graph T)} (hr : Reach h gs) : WInv h gs := by
  induction hr with
  | init h0 => exact ⟨fun i g hi => by simp at hi, fun i j g1 g2 _ hi => by simp at hi⟩
  | step op _ ih => exact ih.after_op op
  | reorder _ hro ih => exact ih.worldReorder hro

/-- C12.  In every reachable program state, for every graph object `g` of it: adjacency of
values is symmetric; adjacent values are values of `g`; and every pointer in the adjacency
set of a node of `g` points to a live node of `g` that has the pointer of the first node
in its own adjacency set. -/
theorem reachable_adjacency_symmetric {h : Heap T} {gs : List (Graph T)} (hr : Reach h gs)
    {g : Graph T} (hg : g ∈ gs) :
    (∀ a b, b ∈ adjValues h g a ↔ a ∈ adjValues h g b) ∧
    (∀ a b, b ∈ adjValues h g a → a ∈ g.keys ∧ b ∈ g.keys) ∧
    ∀ v p n, (v, p) ∈ g.nodes → deref h p = some n → ∀ q ∈ n.adjacents,
      ∃ m, deref h q = some m ∧ (m.value, q) ∈ g.nodes ∧ p ∈ m.adjacents := by
  obtain ⟨i, hi⟩ := List.mem_iff_getElem?.1 hg
  have hwf := hr.winv.1 i g hi
  refine ⟨fun a b => ⟨adjValues_symm hwf, adjValues_symm hwf⟩,
    fun a b hb => mem_keys_of_mem_adjValues hwf hb, ?_⟩
  intro v p n hm hn q hq
  obtain ⟨n', hn', _, _, hadj⟩ := hwf.node v p hm
  rw [hn] at hn'
  have := Option.some.inj hn'
  subst this
  exact hadj q hq

theorem reach_runWorld (ops : List (WOp T)) :
    ∀ (h : Heap T) (gs : List (Graph T)), Reach h gs →
      Reach (runWorld ops (h, gs)).1 (runWorld ops (h, gs)).2 := by
  induction ops with
  | nil => intro h gs hr; exact hr
  | cons op rest ih =>
    intro h gs hr
    exact ih _ _ (Reach.step op hr)

/-- Witness of C12: the graph object that was assigned a copy in `exWorld`. -/
theorem reachable_adjacency_symmetric_witness :
    (∀ a b, b ∈ adjValues exWorld.1 { nodes := [(1, 5), (2, 6)] } a ↔
      a ∈ adjValues exWorld.1 { nodes := [(1, 5), (2, 6)] } b) ∧
    (∀ a b, b ∈ adjValues exWorld.1 { nodes := [(1, 5), (2, 6)] } a →
      a ∈ Graph.keys { nodes := [(1, 5), (2, 6)] } ∧
      b ∈ Graph.keys { nodes := [(1, 5), (2, 6)] }) ∧
    ∀ v p n, (v, p) ∈ [(1, 5), (2, 6)] → deref exWorld.1 p = some n → ∀ q ∈ n.adjacents,
      ∃ m, deref exWorld.1 q = some m ∧ (m.value, q) ∈ [(1, 5), (2, 6)] ∧
        p ∈ m.adjacents :=
  reachable_adjacency_symmetric (reach_runWorld _ [] [] (Reach.init []))
    (g := { nodes := [(1, 5), (2, 6)] }) (by decide)

theorem isPalindorome_short {s : List Char} (hs : s.length < 2) : isPalindorome s = true := by
  rw [isPalindorome]; simp [hs]

theorem isPalindorome_long (x y : Char) (mid : List Char) :
    isPalindorome (x :: (mid ++ [y])) = (decide (x = y) && isPalindorome mid) := by
  rw [isPalindorome]
  have hlen : ¬ (x :: (mid ++ [y])).length < 2 := by simp
  have hlast : (x :: (mid ++ [y]))[(x :: (mid ++ [y])).length - 1]? = some y := by
    simp
  have hsub : ((x :: (mid ++ [y])).drop 1).take ((x :: (mid ++ [y])).length - 2) = mid := by
    simp
  rw [if_neg hlen, hlast, hsub]
  by_cases hxy : x = y
  · simp [hxy]
  · simp [hxy]

theorem palindrome_cons_snoc (x y : Char) (mid : List Char) :
    x :: (mid ++ [y]) = (x :: (mid ++ [y])).reverse ↔ x = y ∧ mid = mid.reverse := by
  have hrev : (x :: (mid ++ [y])).reverse = y :: (mid.reverse ++ [x]) := by simp
  rw [hrev]
  constructor
  · intro h
    injection h with h1 h2
    have := List.append_inj h2 (by simp)
    exact ⟨h1, this.1⟩
  · rintro ⟨rfl, h2⟩
    rw [← h2]

theorem isPalindorome_iff_aux : ∀ (n : Nat) (s : List Char), s.length ≤ n →
    (isPalindorome s = true ↔ s = s.reverse) := by
  intro n
  induction n with
  | zero =>
    intro s hs
    have : s = [] := List.length_eq_zero.1 (by omega)
    subst this
    simp [isPalindorome_short]
  | succ n ih =>
    intro s hs
    cases s with
    | nil => simp [isPalindorome_short]
    | cons x t =>
      rcases List.eq_nil_or_concat t with rfl | ⟨mid, y, rfl⟩
      · simp [isPalindorome_short]
      · rw [List.concat_eq_append, isPalindorome_long, palindrome_cons_snoc]
        have hmid : mid.length ≤ n := by
          simp at hs; omega
        simp only [Bool.and_eq_true, decide_eq_true_eq, ih mid hmid]

/-- C19.  The function `isPalindorome` is total, and it returns `true` exactly when the
string equals its reversal, character for character; it returns `true` on the empty string,
on every one-character string and on `axxa`. -/
theorem isPalindorome_iff_reverse :
    (∀ s : List Char, isPalindorome s = true ↔ s = s.reverse) ∧
    isPalindorome [] = true ∧ (∀ c : Char, isPalindorome [c] = true) ∧
    isPalindorome ['a', 'x', 'x', 'a'] = true := by
  have h := fun s : List Char => isPalindorome_iff_aux s.length s (le_refl _)
  refine ⟨h, (h []).2 rfl, fun c => (h [c]).2 rfl, (h _).2 (by decide)⟩

theorem digitSum_zero : digitSum 0 = 0 := by
  rw [digitSum]; simp

theorem digitSum_of_ne_zero {n : Int} (hn : n ≠ 0) :
    digitSum n = n.tmod 10 + digitSum (n.tdiv 10) := by
  rw [digitSum]; simp [hn]

theorem digitSum_nat : ∀ (m n : Nat), n ≤ m →
    digitSum (n : Int) = ((Nat.digits 10 n).sum : Int) := by
  intro m
  induction m with
  | zero =>
    intro n hn
    have : n = 0 := by omega
    subst this
    simp [digitSum_zero]
  | succ m ih =>
    intro n hn
    by_cases h0 : n = 0
    · subst h0; simp [digitSum_zero]
    · have hpos : 0 < n := Nat.pos_of_ne_zero h0
      have hne : (n : Int) ≠ 0 := by exact_mod_cast h0
      have hdiv : n / 10 ≤ m := by omega
      rw [digitSum_of_ne_zero hne, Nat.digits_def' (by decide) hpos, List.sum_cons]
      have h1 : (n : Int).tmod 10 = ((n % 10 : Nat) : Int) := by
        rw [Int.ofNat_tmod]; rfl
      have h2 : (n : Int).tdiv 10 = ((n / 10 : Nat) : Int) := by
        rw [Int.ofNat_tdiv]; rfl
      rw [h1, h2, ih (n / 10) hdiv]
      push_cast
      rfl

/-- C20.  The function `digitSum` is total, and for every `n ≥ 0` it returns the sum of the
decimal digits of `n`; `digitSum(0)` is 0 and `digitSum(1234)` is 10. -/
theorem digitSum_eq_sum_of_digits :
    (∀ n : Int, 0 ≤ n → digitSum n = ((Nat.digits 10 n.toNat).sum : Int)) ∧
    digitSum 0 = 0 ∧ digitSum 1234 = 10 := by
  have h : ∀ n : Int, 0 ≤ n → digitSum n = ((Nat.digits 10 n.toNat).sum : Int) := by
    intro n hn
    have := digitSum_nat n.toNat n.toNat (le_refl _)
    rwa [Int.toNat_of_nonneg hn] at this
  refine ⟨h, digitSum_zero, ?_⟩
  have h10 : (Nat.digits 10 1234).sum = 10 := by norm_num
  have := digitSum_nat 1234 1234 (le_refl _)
  rw [h10] at this
  exact_mod_cast this

theorem countways_of_le_one {n : Int} (hn : n ≤ 1) : countways n = n := by
  rw [countways]; simp [hn]

theorem countways_of_gt_one {n : Int} (hn : 1 < n) :
    countways n = countways (n - 1) + countways (n - 2) := by
  rw [countways]; simp [not_le.2 hn]

theorem waysToClimb_eq_length : ∀ s : Nat,
    waysToClimb (s : Int) = ((stepSequences s).length : Int) := by
  intro s
  induction s using Nat.twoStepInduction with
  | zero => simp [waysToClimb, countways_of_le_one, stepSequences]
  | one =>
    simp only [waysToClimb, stepSequences, List.length_singleton]
    rw [countways_of_gt_one (by norm_num)]
    rw [countways_of_le_one (by norm_num), countways_of_le_one (by norm_num)]
    norm_num
  | more s ih0 ih1 =>
    simp only [waysToClimb] at ih0 ih1 ⊢
    rw [countways_of_gt_one (by push_cast; omega)]
    have e1 : ((s + 2 : Nat) : Int) + 1 - 1 = ((s + 1 : Nat) : Int) + 1 := by
      push_cast; ring
    have e2 : ((s + 2 : Nat) : Int) + 1 - 2 = (s : Int) + 1 := by
      push_cast; ring
    rw [e1, e2, ih0, ih1]
    simp [stepSequences]

theorem mem_stepSequences : ∀ (s : Nat) (l : List Nat),
    l ∈ stepSequences s ↔ (∀ x ∈ l, x = 1 ∨ x = 2) ∧ l.sum = s := by
  intro s
  induction s using Nat.twoStepInduction with
  | zero =>
    intro l
    simp only [stepSequences, List.mem_singleton]
    constructor
    · rintro rfl; simp
    · rintro ⟨h1, h2⟩
      cases l with
      | nil => rfl
      | cons x t =>
        have := h1 x (List.mem_cons_self _ _)
        simp at h2
        omega
  | one =>
    intro l
    simp only [stepSequences, List.mem_singleton]
    constructor
    · rintro rfl; simp
    · rintro ⟨h1, h2⟩
      cases l with
      | nil => simp at h2
      | cons x t =>
        have hx := h1 x (List.mem_cons_self _ _)
        simp at h2
        cases t with
        | nil => simp at h2; rw [h2]
        | cons y t' =>
          have hy := h1 y (by simp)
          simp at h2
          omega
  | more s ih0 ih1 =>
    intro l
    simp only [stepSequences, List.mem_append, List.mem_map]
    constructor
    · rintro (⟨t, ht, rfl⟩ | ⟨t, ht, rfl⟩)
      · obtain ⟨h1, h2⟩ := (ih1 t).1 ht
        refine ⟨?_, by simp [h2]; omega⟩
        intro x hx
        rcases List.mem_cons.1 hx with rfl | hx
        · exact Or.inl rfl
        · exact h1 x hx
      · obtain ⟨h1, h2⟩ := (ih0 t).1 ht
        refine ⟨?_, by simp [h2]; omega⟩
        intro x hx
        rcases List.mem_cons.1 hx with rfl | hx
        · exact Or.inr rfl
        · exact h1 x hx
    · rintro ⟨h1, h2⟩
      cases l with
      | nil => simp at h2
      | cons x t =>
        have hx := h1 x (List.mem_cons_self _ _)
        have ht : ∀ y ∈ t, y = 1 ∨ y = 2 := fun y hy => h1 y (List.mem_cons_of_mem _ hy)
        simp at h2
        rcases hx with rfl | rfl
        · exact Or.inl ⟨t, (ih1 t).2 ⟨ht, by omega⟩, rfl⟩
        · exact Or.inr ⟨t, (ih0 t).2 ⟨ht, by omega⟩, rfl⟩

theorem nodup_stepSequences : ∀ s : Nat, (stepSequences s).Nodup := by
  intro s
  induction s using Nat.twoStepInduction with
  | zero => simp [stepSequences]
  | one => simp [stepSequences]
  | more s ih0 ih1 =>
    simp only [stepSequences]
    rw [List.nodup_append]
    refine ⟨ih1.map (fun a b hab => by injection hab),
      ih0.map (fun a b hab => by injection hab), ?_⟩
    intro l h1 h2
    obtain ⟨t1, _, rfl⟩ := List.mem_map.1 h1
    obtain ⟨t2, _, h⟩ := List.mem_map.1 h2
    injection h with h _
    omega

/-- C18.  On unbounded integers, for every `s ≥ 0` the value of `waysToClimb(s)` is the
number of sequences of steps of size 1 or 2 whose sizes sum to `s`; `waysToClimb(3)` is 3. -/
theorem waysToClimb_counts_step_sequences :
    (∀ s : Nat, waysToClimb (s : Int) =
      (Set.ncard {l : List Nat | (∀ x ∈ l, x = 1 ∨ x = 2) ∧ l.sum = s} : Int)) ∧
    waysToClimb 3 = 3 := by
  have h : ∀ s : Nat, waysToClimb (s : Int) =
      (Set.ncard {l : List Nat | (∀ x ∈ l, x = 1 ∨ x = 2) ∧ l.sum = s} : Int) := by
    intro s
    have hset : {l : List Nat | (∀ x ∈ l, x = 1 ∨ x = 2) ∧ l.sum = s} =
        ((stepSequences s).toFinset : Set (List Nat)) := by
      ext l
      simp only [Set.mem_setOf_eq, List.coe_toFinset]
      exact (mem_stepSequences s l).symm
    rw [hset, Set.ncard_coe_Finset, List.toFinset_card_of_nodup (nodup_stepSequences s)]
    exact waysToClimb_eq_length s
  refine ⟨h, ?_⟩
  have := waysToClimb_eq_length 3
  simpa [stepSequences] using this

/-- Witness of C20: the digits of 57. -/
theorem digitSum_eq_sum_of_digits_witness :
    digitSum 57 = ((Nat.digits 10 (57 : Int).toNat).sum : Int) :=
  digitSum_eq_sum_of_digits.1 57 (by decide)

end Csc340
